import Mathlib

/-!
# Attestation store and LMD-GHOST head selection

A shallow embedding of `beacon-chain/db/kv/attestations.go` (the attestation
bucket of the key-value store) and of the head-selection walk exercised by
`beacon-chain/blockchain/forkchoice/lmd_ghost_yaml_test.go`.

* A byte slice is a list of naturals, one element per byte.
* The attestations bucket of the database is the ordered list of its
  entries, ascending in `bytes.Compare` order of the keys.  A cursor is the
  list of entries that remain in front of it.
* A transaction is a function on the bucket; `View` hands the bucket back
  untouched, `Update` and `Batch` commit the new bucket only when the
  transaction function reports no error.
* The message codec (`proto.Marshal`, `proto.Unmarshal`, `ssz.HashTreeRoot`)
  and `uint64ToBytes` are parameters, collected in `kv.Codec`.
-/

/-- A byte slice, `[]byte`. -/
abbrev Bytes := List Nat

/-- A 32-byte array, `[32]byte`. -/
structure Hash32 where
  bytes : Bytes
  size : bytes.length = 32
deriving DecidableEq

/-- The test `bytes.Compare(a, b) < 0`: byte-lexicographic order. -/
def bytesLt : Bytes → Bytes → Bool
  | _, [] => false
  | [], _ :: _ => true
  | a :: as, b :: bs => if a < b then true else if b < a then false else bytesLt as bs

/-- The test `bytes.Contains(b, sub)`: `sub` occurs in `b` as a contiguous run. -/
def bytesContains : Bytes → Bytes → Bool
  | [], sub => sub.isEmpty
  | x :: xs, sub => sub.isPrefixOf (x :: xs) || bytesContains xs sub

/-- Errors returned by the store, by the codec and by the database. -/
inductive Error where
  | nilPointer
  | ssz (code : Nat)
  | proto (code : Nat)
  | keyRequired
  | keyTooLarge
  | valueTooLarge
  | incompatibleValue
deriving DecidableEq

namespace ethpb

/-- Crosslink reference data of an attestation. -/
structure Crosslink where
  Shard : Nat
  ParentRoot : Bytes
  StartEpoch : Nat
  EndEpoch : Nat
deriving DecidableEq

/-- Attestation data: the crosslink (a pointer, possibly nil) and the rest of the vote. -/
structure AttestationData where
  Crosslink : Option Crosslink
  Vote : Bytes
deriving DecidableEq

/-- An attestation: its data (a pointer, possibly nil) and the remaining payload. -/
structure Attestation where
  Data : Option AttestationData
  Payload : Bytes
deriving DecidableEq

end ethpb

namespace bolt

/-- The content of one bucket: entries in ascending key order.  The value
`none` is what a cursor reports (`v == nil`) for a key that holds a nested
bucket. -/
abbrev Bucket := List (Bytes × Option Bytes)

/-- Largest key length accepted by `Put`. -/
def MaxKeySize : Nat := 32768

/-- Largest value length accepted by `Put`. -/
def MaxValueSize : Nat := 2 ^ 31 - 2

/-- The bucket invariant: keys strictly ascending. -/
def SortedKeys (b : Bucket) : Prop :=
  List.Pairwise (fun e1 e2 => bytesLt e1.1 e2.1 = true) b

instance (b : Bucket) : Decidable (SortedKeys b) := by
  unfold SortedKeys
  infer_instance

/-- Cursor positioning, `c.Seek(key)`: the entries from the first key that
is not below `key` onwards (empty when there is none, `k == nil`). -/
def seek (b : Bucket) (key : Bytes) : Bucket :=
  b.dropWhile (fun e => bytesLt e.1 key)

/-- Insertion into the sorted entries: at the first index whose key is not
below `key`, replacing the entry there when its key equals `key`. -/
def nodePut (key value : Bytes) : Bucket → Bucket
  | [] => [(key, some value)]
  | (k, v) :: rest =>
    if bytesLt k key then (k, v) :: nodePut key value rest
    else if k = key then (key, some value) :: rest
    else (key, some value) :: (k, v) :: rest

/-- Removal from the sorted entries: the entry at the first index whose key
is not below `key`, when its key equals `key`. -/
def nodeDel (key : Bytes) : Bucket → Bucket
  | [] => []
  | (k, v) :: rest =>
    if bytesLt k key then (k, v) :: nodeDel key rest
    else if k = key then rest
    else (k, v) :: rest

/-- The call `bucket.Put(key, value)`. -/
def Put (b : Bucket) (key value : Bytes) : Except Error Bucket :=
  if key.length = 0 then .error .keyRequired
  else if key.length > MaxKeySize then .error .keyTooLarge
  else if value.length > MaxValueSize then .error .valueTooLarge
  else
    match seek b key with
    | (k, none) :: _ => if k = key then .error .incompatibleValue else .ok (nodePut key value b)
    | _ => .ok (nodePut key value b)

/-- The call `bucket.Delete(key)`. -/
def Delete (b : Bucket) (key : Bytes) : Except Error Bucket :=
  match seek b key with
  | (_, none) :: _ => .error .incompatibleValue
  | _ => .ok (nodeDel key b)

/-- A read-only transaction, `db.View(fn)`: the bucket is handed back as it was. -/
def View {α : Type} (db : Bucket) (fn : Bucket → α) : α × Bucket :=
  (fn db, db)

/-- A read-write transaction, `db.Update(fn)`: committed when `fn` returns
no error, rolled back otherwise. -/
def Update (db : Bucket) (fn : Bucket → Except Error Bucket) : Option Error × Bucket :=
  match fn db with
  | .ok db1 => (none, db1)
  | .error e => (some e, db)

/-- A batched read-write transaction, `db.Batch(fn)`: a failing function is
rolled back and its error returned. -/
def Batch (db : Bucket) (fn : Bucket → Except Error Bucket) : Option Error × Bucket :=
  Update db fn

end bolt

namespace kv

open bolt

/-- The external functions the store calls. -/
structure Codec where
  uint64ToBytes : Nat → Bytes
  hashTreeRoot : ethpb.Attestation → Except Error Hash32
  marshal : ethpb.Attestation → Except Error Bytes
  unmarshal : Bytes → Except Error ethpb.Attestation

/-- The codec is reversible: decoding an encoding gives the message back. -/
def Codec.RoundTrip (c : Codec) : Prop :=
  ∀ att enc, c.marshal att = .ok enc → c.unmarshal enc = .ok att

/-- The empty message `&ethpb.Attestation{}`. -/
def emptyAttestation : ethpb.Attestation := { Data := none, Payload := [] }

/-- The literal `[]byte("shard")`. -/
def strShard : Bytes := [115, 104, 97, 114, 100]

/-- The literal `[]byte("parent-root")`. -/
def strParentRoot : Bytes := [112, 97, 114, 101, 110, 116, 45, 114, 111, 111, 116]

/-- The literal `[]byte("start-epoch")`. -/
def strStartEpoch : Bytes := [115, 116, 97, 114, 116, 45, 101, 112, 111, 99, 104]

/-- The literal `[]byte("end-epoch")`. -/
def strEndEpoch : Bytes := [101, 110, 100, 45, 101, 112, 111, 99, 104]

/-- The literal `[]byte("root")`. -/
def strRoot : Bytes := [114, 111, 111, 116]

/-- The bytes appended to `buf` before the content root is computed. -/
def keyFields (c : Codec) (cl : ethpb.Crosslink) : Bytes :=
  strShard ++ c.uint64ToBytes cl.Shard
    ++ strParentRoot ++ cl.ParentRoot
    ++ strStartEpoch ++ c.uint64ToBytes cl.StartEpoch
    ++ strEndEpoch ++ c.uint64ToBytes cl.EndEpoch
    ++ strRoot

/-- The function `generateAttestationKey`.  Reading `att.Data.Crosslink`
through a nil pointer is reported as `Error.nilPointer`. -/
def generateAttestationKey (c : Codec) (att : ethpb.Attestation) : Except Error Bytes :=
  match att.Data with
  | none => .error .nilPointer
  | some data =>
    match data.Crosslink with
    | none => .error .nilPointer
    | some cl =>
      let buf := keyFields c cl
      match c.hashTreeRoot att with
      | .error e => .error e
      | .ok attRoot => .ok (buf ++ attRoot.bytes)

/-- The cursor loop of `Attestation`, from the current cursor position. -/
def attestationLoop (c : Codec) (attRoot : Bytes) : Bucket → Except Error ethpb.Attestation
  | [] => .ok emptyAttestation
  | (k, v) :: rest =>
    if bytesContains k attRoot then
      match v with
      | some v => c.unmarshal v
      | none => attestationLoop c attRoot rest
    else .ok emptyAttestation

/-- The method `Store.Attestation`: retrieval by root. -/
def Attestation (c : Codec) (db : Bucket) (attRoot : Hash32) :
    Except Error ethpb.Attestation × Bucket :=
  View db (fun bkt => attestationLoop c attRoot.bytes (seek bkt attRoot.bytes))

/-- The cursor loop of `HasAttestation`, from the current cursor position. -/
def hasAttestationLoop (attRoot : Bytes) : Bucket → Bool
  | [] => false
  | (k, v) :: rest =>
    if bytesContains k attRoot then
      match v with
      | some _ => true
      | none => hasAttestationLoop attRoot rest
    else false

/-- The method `Store.HasAttestation`. -/
def HasAttestation (db : Bucket) (attRoot : Hash32) : Bool × Bucket :=
  View db (fun bkt => hasAttestationLoop attRoot.bytes (seek bkt attRoot.bytes))

/-- The cursor loop of `DeleteAttestation`: `cur` is what is in front of
the cursor, `bkt` the whole bucket. -/
def deleteAttestationLoop (attRoot : Bytes) (bkt : Bucket) : Bucket → Except Error Bucket
  | [] => .ok bkt
  | (k, v) :: rest =>
    if bytesContains k attRoot then
      match v with
      | some _ => Delete bkt k
      | none => deleteAttestationLoop attRoot bkt rest
    else .ok bkt

/-- The method `Store.DeleteAttestation`. -/
def DeleteAttestation (db : Bucket) (attRoot : Hash32) : Option Error × Bucket :=
  Update db (fun bkt => deleteAttestationLoop attRoot.bytes bkt (seek bkt attRoot.bytes))

/-- The method `Store.SaveAttestation`. -/
def SaveAttestation (c : Codec) (db : Bucket) (att : ethpb.Attestation) :
    Option Error × Bucket :=
  match generateAttestationKey c att with
  | .error e => (some e, db)
  | .ok key =>
    match c.marshal att with
    | .error e => (some e, db)
    | .ok enc => Update db (fun bucket => Put bucket key enc)

/-- The loop body of `SaveAttestations`, run inside one transaction. -/
def saveAttestationsLoop (c : Codec) : List ethpb.Attestation → Bucket → Except Error Bucket
  | [], bucket => .ok bucket
  | att :: atts, bucket =>
    match generateAttestationKey c att with
    | .error e => .error e
    | .ok key =>
      match c.marshal att with
      | .error e => .error e
      | .ok enc =>
        match Put bucket key enc with
        | .error e => .error e
        | .ok bucket1 => saveAttestationsLoop c atts bucket1

/-- The method `Store.SaveAttestations`. -/
def SaveAttestations (c : Codec) (db : Bucket) (atts : List ethpb.Attestation) :
    Option Error × Bucket :=
  Batch db (saveAttestationsLoop c atts)

/-- The cursor loop of `Attestations`: every entry from the first one on. -/
def attestationsLoop (c : Codec) :
    Bucket → List ethpb.Attestation → Except Error (List ethpb.Attestation)
  | [], atts => .ok atts
  | (_, v) :: rest, atts =>
    match v with
    | some v =>
      match c.unmarshal v with
      | .error e => .error e
      | .ok att => attestationsLoop c rest (atts ++ [att])
    | none => attestationsLoop c rest atts

/-- The filter argument of `Attestations`, `*filters.QueryFilter` (nil is
`none`): a list of criteria, each a filter type and its value. -/
structure QueryFilter where
  queries : List (Nat × Bytes)

/-- The method `Store.Attestations`: the filter `f` is not read. -/
def Attestations (c : Codec) (db : Bucket) (_f : Option QueryFilter) :
    Except Error (List ethpb.Attestation) × Bucket :=
  View db (fun bkt => attestationsLoop c bkt [])

/-- The scan reaches the record `(k, v)`: from the seek position on, every
entry in front of it has a key containing the root and a nil value, and `k`
contains the root. -/
def Reaches (db : Bucket) (attRoot : Bytes) (k v : Bytes) : Prop :=
  ∃ pre post, seek db attRoot = pre ++ (k, some v) :: post ∧
    (∀ e ∈ pre, bytesContains e.1 attRoot = true ∧ e.2 = none) ∧
    bytesContains k attRoot = true

/-- Little-endian encoding of a number on `n` bytes. -/
def leBytes : Nat → Nat → Bytes
  | 0, _ => []
  | n + 1, x => (x % 256) :: leBytes n (x / 256)

/-- A sample codec: eight little-endian bytes for a `uint64`, the payload
cut or zero-padded to 32 bytes as content root, and a tagged concatenation
of the fields as encoding. -/
def sampleCodec : Codec where
  uint64ToBytes := leBytes 8
  hashTreeRoot := fun att =>
    .ok ⟨(att.Payload ++ List.replicate 32 0).take 32, by simp⟩
  marshal := fun att =>
    match att.Data with
    | none => .ok (0 :: att.Payload)
    | some d =>
      match d.Crosslink with
      | none => .ok (1 :: d.Vote.length :: (d.Vote ++ att.Payload))
      | some cl =>
        .ok (2 :: cl.Shard :: cl.StartEpoch :: cl.EndEpoch :: cl.ParentRoot.length ::
          (cl.ParentRoot ++ d.Vote.length :: (d.Vote ++ att.Payload)))
  unmarshal := fun enc =>
    match enc with
    | 0 :: p => .ok { Data := none, Payload := p }
    | 1 :: n :: r =>
      .ok { Data := some { Crosslink := none, Vote := r.take n }, Payload := r.drop n }
    | 2 :: sh :: se :: ee :: n :: r =>
      match r.drop n with
      | m :: r2 =>
        .ok {
          Data := some {
            Crosslink := some { Shard := sh, ParentRoot := r.take n, StartEpoch := se, EndEpoch := ee }
            Vote := r2.take m }
          Payload := r2.drop m }
      | [] => .error (.proto 1)
    | _ => .error (.proto 0)

/-- A sample attestation on shard `sh` whose payload is 32 copies of `x`. -/
def sampleAtt (sh x : Nat) : ethpb.Attestation :=
  { Data := some {
      Crosslink := some { Shard := sh, ParentRoot := List.replicate 32 0, StartEpoch := 0, EndEpoch := 1 }
      Vote := [] }
    Payload := List.replicate 32 x }

/-- The content root of `sampleAtt sh x` under `sampleCodec`. -/
def sampleRoot (x : Nat) : Hash32 := ⟨List.replicate 32 x, by simp⟩

/-- A sample store: `sampleAtt 0 1` and `sampleAtt 1 2` saved, in this
order, into the empty store. -/
def sampleStore : Bucket :=
  (SaveAttestation sampleCodec (SaveAttestation sampleCodec [] (sampleAtt 0 1)).2
    (sampleAtt 1 2)).2

/-- The key of `sampleAtt sh x` under `sampleCodec`. -/
def sampleKey (sh x : Nat) : Bytes :=
  keyFields sampleCodec
    { Shard := sh, ParentRoot := List.replicate 32 0, StartEpoch := 0, EndEpoch := 1 }
    ++ (sampleRoot x).bytes

/-- The encoding of `sampleAtt sh x` under `sampleCodec`. -/
def sampleEnc (sh x : Nat) : Bytes :=
  2 :: sh :: 0 :: 1 :: 32 :: (List.replicate 32 0 ++ 0 :: List.replicate 32 x)

/-- As `sampleAtt sh x`, with one more byte of payload: another message
with the same crosslink and the same content root. -/
def sampleAttLong (sh x : Nat) : ethpb.Attestation :=
  { sampleAtt sh x with Payload := List.replicate 33 x }

/-- The crosslink an attestation refers to, when both pointers are set. -/
def crosslinkOf (att : ethpb.Attestation) : Option ethpb.Crosslink :=
  att.Data.bind (fun d => d.Crosslink)

end kv

namespace forkchoice

/-- A beacon block, reduced to the fields fork choice reads. -/
structure Block where
  slot : Nat
  parentRoot : Bytes
deriving DecidableEq

/-- The blocks of the store, each under its root, in the order in which the
store enumerates them. -/
abbrev BlockStore := List (Bytes × Block)

/-- A checkpoint: an epoch and a block root. -/
structure Checkpoint where
  epoch : Nat
  root : Bytes
deriving DecidableEq

/-- A validator, reduced to the fields fork choice reads. -/
structure Validator where
  exitEpoch : Nat
  effectiveBalance : Nat
deriving DecidableEq

/-- A state snapshot: the validators in index order, and the randao mixes. -/
structure StateSnapshot where
  validators : List Validator
  randaoMixes : List Bytes
deriving DecidableEq

/-- The latest vote of one validator. -/
structure LatestVote where
  validatorIndex : Nat
  targetRoot : Bytes
deriving DecidableEq

/-- The fork-choice engine: the keyed store (blocks, states), the
checkpoint-state cache, the vote ledger and the two checkpoints. -/
structure Store where
  blocks : BlockStore
  states : List (Bytes × StateSnapshot)
  checkpointState : List (Checkpoint × StateSnapshot)
  latestVotes : List LatestVote
  justifiedCheckpt : Checkpoint
  finalizedCheckpt : Checkpoint

/-- The ways in which `Head` fails. -/
inductive HeadError where
  | blockMissing
  | stateMissing
deriving DecidableEq

/-- Modelled from the spec: the store read of a block by its root (the
block store itself is not among the sources). -/
def blockByRoot (blocks : BlockStore) (root : Bytes) : Option Block :=
  blocks.lookup root

/-- Modelled from the spec: step 4a of `Head`, all blocks in the store whose
`parent_root` equals the root of the current node. -/
def children (blocks : BlockStore) (root : Bytes) : List Bytes :=
  (blocks.filter (fun e => decide (e.2.parentRoot = root))).map (fun e => e.1)

/-- Modelled from the spec: ancestor-at-slot resolution of step 4c.  From
the vote's target, follow parent pointers until a block whose slot equals
`slot` is reached, or until passing below it.  One unit of fuel is spent
per block visited; `weight` supplies as many as there are blocks. -/
def ancestor (blocks : BlockStore) : Nat → Bytes → Nat → Option Bytes
  | 0, _, _ => none
  | fuel + 1, root, slot =>
    match blockByRoot blocks root with
    | none => none
    | some b =>
      if b.slot = slot then some root
      else if b.slot < slot then none
      else ancestor blocks fuel b.parentRoot slot

/-- Modelled from the spec: the entry of the vote ledger for a validator index. -/
def latestVote (votes : List LatestVote) (index : Nat) : Option Bytes :=
  (votes.find? (fun v => decide (v.validatorIndex = index))).map (fun v => v.targetRoot)

/-- Modelled from the spec: what validator `index` adds to the weight of `child`. -/
def contribution (isActive : Validator → Bool) (blocks : BlockStore) (votes : List LatestVote)
    (child : Bytes) (slot : Nat) (index : Nat) (v : Validator) : Nat :=
  if isActive v then
    match latestVote votes index with
    | none => 0
    | some target =>
      if ancestor blocks blocks.length target slot = some child then v.effectiveBalance else 0
  else 0

/-- Modelled from the spec: the weight of a child in step 4c of `Head`, the
sum of the effective balances of the active validators whose latest vote's
target, walked up the ancestor chain to the child's slot, equals the child's
root.  The activity test is external and is the parameter `isActive`. -/
def weight (isActive : Validator → Bool) (blocks : BlockStore) (votes : List LatestVote)
    (state : StateSnapshot) (child : Bytes) : Nat :=
  match blockByRoot blocks child with
  | none => 0
  | some cb =>
    (state.validators.enum.map
      (fun iv => contribution isActive blocks votes child cb.slot iv.1 iv.2)).sum

/-- Modelled from the spec: one comparison of step 4d.  The candidate
replaces the best child so far when it is strictly heavier, or equally heavy
with a lexicographically greater root. -/
def better (w : Bytes → Nat) (best cand : Bytes) : Bytes :=
  if w best < w cand ∨ (w cand = w best ∧ bytesLt best cand = true) then cand else best

/-- Modelled from the spec: step 4d of `Head`, the selection among the
children found in step 4a, compared one after the other (`none` when there
is no child). -/
def selectChild (w : Bytes → Nat) : List Bytes → Option Bytes
  | [] => none
  | c :: cs => some (cs.foldl (better w) c)

/-- Modelled from the spec: the walk of step 4 of `Head`.  The result is
`none` when the fuel runs out before a block without children is reached. -/
def headLoop (w : Bytes → Nat) (blocks : BlockStore) : Nat → Bytes → Option Bytes
  | 0, _ => none
  | fuel + 1, cur =>
    match selectChild w (children blocks cur) with
    | none => some cur
    | some best => headLoop w blocks fuel best

/-- The nodes the walk of `headLoop` visits, first to last. -/
def headTrace (w : Bytes → Nat) (blocks : BlockStore) : Nat → Bytes → Option (List Bytes)
  | 0, _ => none
  | fuel + 1, cur =>
    match selectChild w (children blocks cur) with
    | none => some [cur]
    | some best => (headTrace w blocks fuel best).map (fun t => cur :: t)

/-- Modelled from the spec: step 2 of `Head`, the state snapshot of the
justified checkpoint from the checkpoint-state cache, falling back to the
store read by the checkpoint's root. -/
def justifiedState (s : Store) : Option StateSnapshot :=
  match s.checkpointState.lookup s.justifiedCheckpt with
  | some st => some st
  | none => s.states.lookup s.justifiedCheckpt.root

/-- Modelled from the spec: `Head` (section 4.4; the engine itself is not
among the sources, only its test is).  The outer `none` stands for a walk
that has not ended within `fuel` descents. -/
def Head (isActive : Validator → Bool) (fuel : Nat) (s : Store) :
    Option (Except HeadError Bytes) :=
  match blockByRoot s.blocks s.justifiedCheckpt.root with
  | none => some (.error .blockMissing)
  | some _ =>
    match justifiedState s with
    | none => some (.error .stateMissing)
    | some st =>
      (headLoop (weight isActive s.blocks s.latestVotes st) s.blocks fuel
        s.justifiedCheckpt.root).map .ok

/-- The walk descends from `x` to `y`: `y` is a child of `x`, and no child
of `x` that is strictly outweighed by a sibling is `y`. -/
def Descends (w : Bytes → Nat) (blocks : BlockStore) (x y : Bytes) : Prop :=
  y ∈ children blocks x ∧
    ∀ b1 ∈ children blocks x, ∀ b2 ∈ children blocks x, w b2 < w b1 → y ≠ b2

/-- The tie-break rule at `x`: `y` is a child of `x` of maximal weight, and
every other child of the same weight has a lexicographically smaller root. -/
def TieBreak (w : Bytes → Nat) (blocks : BlockStore) (x y : Bytes) : Prop :=
  y ∈ children blocks x ∧ (∀ c ∈ children blocks x, w c ≤ w y) ∧
    ∀ c ∈ children blocks x, w c = w y → c = y ∨ bytesLt c y = true

/-- Slots grow from parent to child, and none exceeds `bound`. -/
def SlotsAscend (blocks : BlockStore) (bound : Nat) : Prop :=
  (∀ e ∈ blocks, ∀ f ∈ blocks, f.2.parentRoot = e.1 → e.2.slot < f.2.slot) ∧
    ∀ e ∈ blocks, e.2.slot ≤ bound

instance (blocks : BlockStore) (bound : Nat) : Decidable (SlotsAscend blocks bound) := by
  unfold SlotsAscend
  infer_instance

/-- The order by which step 4d compares children: by weight, then by root. -/
def ChildLe (w : Bytes → Nat) (x y : Bytes) : Prop :=
  w x < w y ∨ (w x = w y ∧ (x = y ∨ bytesLt x y = true))

/-- The engine `s` over another enumeration of the blocks. -/
def withBlocks (s : Store) (blocks : BlockStore) : Store :=
  { s with blocks := blocks }

/-- The activity test of the sample: the exit epoch lies after epoch 0. -/
def sampleActive (v : Validator) : Bool := decide (0 < v.exitEpoch)

/-- A 32-byte sample root made of one repeated byte. -/
def rootOf (x : Nat) : Bytes := List.replicate 32 x

/-- The votes of validators `first .. first + n - 1`, all for `target`. -/
def votesFor (target : Bytes) (first n : Nat) : List LatestVote :=
  (List.range n).map (fun i => { validatorIndex := first + i, targetRoot := target })

/-- The state of the sample: ten validators of equal balance, all active. -/
def sampleState : StateSnapshot where
  validators := List.replicate 10 { exitEpoch := 2, effectiveBalance := 1000000000 }
  randaoMixes := []

/-- The sample of the test: genesis `rootOf 71` at slot 0, its children
`rootOf 1` at slot 1 and `rootOf 2` at slot 2, ten validators of equal
balance, the first `n1` voting for `rootOf 1` and the rest for `rootOf 2`. -/
def sampleStore (n1 : Nat) : Store where
  blocks := [(rootOf 71, { slot := 0, parentRoot := [103] }),
    (rootOf 1, { slot := 1, parentRoot := rootOf 71 }),
    (rootOf 2, { slot := 2, parentRoot := rootOf 71 })]
  states := [(rootOf 71, sampleState)]
  checkpointState := []
  latestVotes := votesFor (rootOf 1) 0 n1 ++ votesFor (rootOf 2) n1 (10 - n1)
  justifiedCheckpt := { epoch := 0, root := rootOf 71 }
  finalizedCheckpt := { epoch := 0, root := rootOf 71 }

/-- A store that holds the genesis block alone, with no vote. -/
def genesisOnly : Store where
  blocks := [(rootOf 71, { slot := 0, parentRoot := [103] })]
  states := [(rootOf 71, sampleState)]
  checkpointState := []
  latestVotes := []
  justifiedCheckpt := { epoch := 0, root := rootOf 71 }
  finalizedCheckpt := { epoch := 0, root := rootOf 71 }

end forkchoice

namespace kv

open bolt

/-- The stored records of a bucket, in bucket order: the entries that carry
a value (an entry without one is a nested bucket, not a record). -/
def records (db : Bucket) : List (Bytes × Bytes) :=
  db.filterMap (fun e => e.2.map (fun v => (e.1, v)))

/-- The list query as the specification words it: the decoded value of every
record, in order, or the error of the first value that fails to decode. -/
def decodeAll (c : Codec) : List (Bytes × Bytes) → Except Error (List ethpb.Attestation)
  | [] => .ok []
  | r :: rs =>
    match c.unmarshal r.2 with
    | .error e => .error e
    | .ok att =>
      match decodeAll c rs with
      | .error e => .error e
      | .ok atts => .ok (att :: atts)

/-- The three steps the save loop takes for one attestation: key generation,
serialization, `Put`. -/
def saveOne (c : Codec) (att : ethpb.Attestation) (bucket : Bucket) : Except Error Bucket :=
  match generateAttestationKey c att with
  | .error e => .error e
  | .ok key =>
    match c.marshal att with
    | .error e => .error e
    | .ok enc => Put bucket key enc

/-- Calling `SaveAttestation` on each element of a list, in list order: the
errors returned, and the store after the last call. -/
def saveEach (c : Codec) : List ethpb.Attestation → Bucket → List (Option Error) × Bucket
  | [], db => ([], db)
  | att :: atts, db =>
    ((SaveAttestation c db att).1 :: (saveEach c atts (SaveAttestation c db att).2).1,
      (saveEach c atts (SaveAttestation c db att).2).2)

/-- The key `k0` is the smallest stored key that is not below `root`. -/
def IsSeekKey (db : Bucket) (root k0 : Bytes) : Prop :=
  k0 ∈ db.map (fun e => e.1) ∧ bytesLt k0 root = false ∧
    ∀ e ∈ db, bytesLt e.1 root = false → e.1 = k0 ∨ bytesLt k0 e.1 = true

instance (db : Bucket) (root k0 : Bytes) : Decidable (IsSeekKey db root k0) := by
  unfold IsSeekKey
  infer_instance

/-- The stores populated, from the empty one, through `SaveAttestation` and
`SaveAttestations` only. -/
inductive Populated (c : Codec) : Bucket → Prop where
  | empty : Populated c []
  | save (db : Bucket) (att : ethpb.Attestation) :
      Populated c db → Populated c (SaveAttestation c db att).2
  | saveBatch (db : Bucket) (atts : List ethpb.Attestation) :
      Populated c db → Populated c (SaveAttestations c db atts).2

/-- As `sampleCodec`, except that a message with an empty payload fails to
serialize and a payload of more than 32 bytes fails to hash. -/
def strictCodec : Codec where
  uint64ToBytes := sampleCodec.uint64ToBytes
  hashTreeRoot := fun att =>
    if 32 < att.Payload.length then .error (.ssz 1) else sampleCodec.hashTreeRoot att
  marshal := fun att =>
    match att.Payload with
    | [] => .error (.proto 2)
    | _ :: _ => sampleCodec.marshal att
  unmarshal := sampleCodec.unmarshal

/-- A store state whose only value does not decode under `sampleCodec`. -/
def undecodableStore : Bucket := [(sampleKey 0 1, some [9])]

/-- A parent root of 32768 bytes: with it the generated key is longer than
`MaxKeySize`. -/
def longParentRoot : Bytes := List.replicate 32768 0

/-- A sample attestation whose crosslink carries `longParentRoot`. -/
def longAtt : ethpb.Attestation :=
  { Data := some {
      Crosslink := some { Shard := 0, ParentRoot := longParentRoot, StartEpoch := 0, EndEpoch := 1 }
      Vote := [] }
    Payload := List.replicate 32 3 }

/-- A sample attestation with an empty payload, which `strictCodec` does not
serialize. -/
def noPayloadAtt : ethpb.Attestation :=
  { Data := some {
      Crosslink := some { Shard := 2, ParentRoot := List.replicate 32 0, StartEpoch := 0, EndEpoch := 1 }
      Vote := [] }
    Payload := [] }

end kv

/-! # Lemmas and theorems -/

/-! ## Byte order -/

theorem bytesLt_irrefl (a : Bytes) : bytesLt a a = false := by
  induction a with
  | nil => rfl
  | cons x xs ih => simp [bytesLt, ih]

theorem bytesLt_cons_of_lt (x y : Nat) (xs ys : Bytes) (h : x < y) :
    bytesLt (x :: xs) (y :: ys) = true := by
  simp [bytesLt, h]

theorem bytesLt_nil_right (a : Bytes) : bytesLt a [] = false := by
  cases a <;> rfl

theorem bytesLt_trans : ∀ (a b c : Bytes), bytesLt a b = true → bytesLt b c = true →
    bytesLt a c = true
  | a, [], _, h, _ => by simp [bytesLt_nil_right] at h
  | _, _ :: _, [], _, h => by simp [bytesLt_nil_right] at h
  | [], _ :: _, _ :: _, _, _ => by simp [bytesLt]
  | x :: xs, y :: ys, z :: zs, h1, h2 => by
    simp only [bytesLt] at h1 h2 ⊢
    split_ifs at h1 h2 ⊢ <;>
      first
        | rfl
        | omega
        | exact absurd h1 Bool.false_ne_true
        | exact absurd h2 Bool.false_ne_true
        | exact bytesLt_trans xs ys zs h1 h2

theorem bytesLt_total : ∀ (a b : Bytes), bytesLt a b = false → a = b ∨ bytesLt b a = true
  | [], [], _ => Or.inl rfl
  | [], _ :: _, h => by simp [bytesLt] at h
  | _ :: _, [], _ => by simp [bytesLt]
  | x :: xs, y :: ys, h => by
    simp only [bytesLt] at h ⊢
    rcases Nat.lt_trichotomy x y with hlt | heq | hgt
    · simp [hlt] at h
    · subst heq
      simp only [lt_self_iff_false, if_false] at h ⊢
      rcases bytesLt_total xs ys h with h5 | h5
      · exact Or.inl (by rw [h5])
      · exact Or.inr h5
    · exact Or.inr (by simp [hgt])

theorem bytesLt_asymm (a b : Bytes) (h1 : bytesLt a b = true) : bytesLt b a = false := by
  cases h2 : bytesLt b a with
  | false => rfl
  | true =>
    have := bytesLt_trans a b a h1 h2
    rw [bytesLt_irrefl] at this
    exact absurd this Bool.false_ne_true

namespace kv

open bolt

/-! ## Sorted insertion -/

theorem nodePut_idem (k v : Bytes) (b : Bucket) :
    nodePut k v (nodePut k v b) = nodePut k v b := by
  induction b with
  | nil => simp [nodePut, bytesLt_irrefl]
  | cons e rest ih =>
    obtain ⟨k1, v1⟩ := e
    by_cases h1 : bytesLt k1 k = true
    · simp [nodePut, h1, ih]
    · by_cases h2 : k1 = k
      · subst h2
        simp [nodePut, bytesLt_irrefl]
      · simp [nodePut, h1, h2, bytesLt_irrefl]

theorem seek_nodePut (k v : Bytes) (b : Bucket) :
    ∃ rest, seek (nodePut k v b) k = (k, some v) :: rest := by
  induction b with
  | nil => exact ⟨[], by simp [nodePut, seek, List.dropWhile, bytesLt_irrefl]⟩
  | cons e rest ih =>
    obtain ⟨k1, v1⟩ := e
    obtain ⟨r, hr⟩ := ih
    by_cases h1 : bytesLt k1 k = true
    · refine ⟨r, ?_⟩
      simp only [seek] at hr
      simp [nodePut, h1, seek, List.dropWhile, hr]
    · by_cases h2 : k1 = k
      · subst h2
        exact ⟨rest, by simp [nodePut, seek, List.dropWhile, bytesLt_irrefl]⟩
      · exact ⟨(k1, v1) :: rest, by simp [nodePut, h1, h2, seek, List.dropWhile, bytesLt_irrefl]⟩

theorem mem_nodePut_self (k v : Bytes) (b : Bucket) : (k, some v) ∈ nodePut k v b := by
  induction b with
  | nil => simp [nodePut]
  | cons e rest ih =>
    obtain ⟨k1, v1⟩ := e
    by_cases h1 : bytesLt k1 k = true
    · simp [nodePut, h1, ih]
    · by_cases h2 : k1 = k
      · subst h2
        simp [nodePut, bytesLt_irrefl]
      · simp [nodePut, h1, h2]

theorem mem_nodePut_of_ne (k v : Bytes) (b : Bucket) (e : Bytes × Option Bytes)
    (he : e ∈ b) (hne : e.1 ≠ k) : e ∈ nodePut k v b := by
  induction b with
  | nil => simp at he
  | cons e1 rest ih =>
    obtain ⟨k1, v1⟩ := e1
    rcases List.mem_cons.1 he with h | h
    · subst h
      have h2 : ¬ k1 = k := hne
      by_cases h1 : bytesLt k1 k = true
      · simp [nodePut, h1]
      · simp [nodePut, h1, h2]
    · by_cases h1 : bytesLt k1 k = true
      · simp [nodePut, h1, ih h]
      · by_cases h2 : k1 = k
        · subst h2
          simp [nodePut, bytesLt_irrefl, h]
        · simp [nodePut, h1, h2, h]

theorem mem_nodePut (k v : Bytes) (b : Bucket) (e : Bytes × Option Bytes)
    (h : e ∈ nodePut k v b) : e = (k, some v) ∨ e ∈ b := by
  induction b with
  | nil => simpa [nodePut] using h
  | cons e1 rest ih =>
    obtain ⟨k1, v1⟩ := e1
    by_cases h1 : bytesLt k1 k = true
    · simp only [nodePut, h1, if_true, List.mem_cons] at h
      rcases h with h | h
      · exact Or.inr (by simp [h])
      · rcases ih h with h2 | h2
        · exact Or.inl h2
        · exact Or.inr (List.mem_cons_of_mem _ h2)
    · by_cases h2 : k1 = k
      · subst h2
        simp only [nodePut, bytesLt_irrefl, Bool.false_eq_true, if_false, if_true,
          List.mem_cons] at h
        rcases h with h3 | h3
        · exact Or.inl h3
        · exact Or.inr (List.mem_cons_of_mem _ h3)
      · simp only [nodePut, h1, h2, Bool.false_eq_true, ↓reduceIte, List.mem_cons] at h
        rcases h with h3 | h3 | h3
        · exact Or.inl h3
        · exact Or.inr (by simp [h3])
        · exact Or.inr (List.mem_cons_of_mem _ h3)

theorem nodePut_sorted (k v : Bytes) (b : Bucket) (hs : SortedKeys b) :
    SortedKeys (nodePut k v b) := by
  induction b with
  | nil => simp [nodePut, SortedKeys]
  | cons e1 rest ih =>
    obtain ⟨k1, v1⟩ := e1
    have hs1 : ∀ e ∈ rest, bytesLt k1 e.1 = true := (List.pairwise_cons.1 hs).1
    have hs2 : SortedKeys rest := (List.pairwise_cons.1 hs).2
    by_cases h1 : bytesLt k1 k = true
    · simp only [nodePut, h1, if_true]
      refine List.pairwise_cons.2 ⟨?_, ih hs2⟩
      intro e he
      rcases mem_nodePut k v rest e he with h | h
      · rw [h]
        exact h1
      · exact hs1 e h
    · by_cases h2 : k1 = k
      · subst h2
        simp only [nodePut, bytesLt_irrefl, Bool.false_eq_true, if_false, if_true]
        exact List.pairwise_cons.2 ⟨hs1, hs2⟩
      · simp only [nodePut, h1, h2, if_false]
        have hlt : bytesLt k k1 = true := by
          rcases bytesLt_total k1 k (by simpa using h1) with h | h
          · exact absurd h h2
          · exact h
        refine List.pairwise_cons.2 ⟨?_, hs⟩
        intro e he
        rcases List.mem_cons.1 he with h | h
        · rw [h]
          exact hlt
        · exact bytesLt_trans k k1 e.1 hlt (hs1 e h)

theorem count_nodePut (k v : Bytes) (b : Bucket) (hs : SortedKeys b) :
    ((nodePut k v b).filter (fun e => decide (e.1 = k))).length = 1 := by
  induction b with
  | nil => simp [nodePut]
  | cons e rest ih =>
    obtain ⟨k1, v1⟩ := e
    have hs1 : ∀ e ∈ rest, bytesLt k1 e.1 = true := (List.pairwise_cons.1 hs).1
    have hs2 : SortedKeys rest := (List.pairwise_cons.1 hs).2
    have hrest : ¬ bytesLt k1 k = true → rest.filter (fun e => decide (e.1 = k)) = [] := by
      intro hlt
      rw [List.filter_eq_nil_iff]
      intro e he
      have := hs1 e he
      simp only [decide_eq_true_eq]
      intro hek
      rw [hek] at this
      exact hlt this
    by_cases h1 : bytesLt k1 k = true
    · have hne : ¬ k1 = k := by
        intro h
        rw [h, bytesLt_irrefl] at h1
        exact Bool.false_ne_true h1
      simp [nodePut, h1, List.filter_cons, hne, ih hs2]
    · by_cases h2 : k1 = k
      · subst h2
        simp [nodePut, bytesLt_irrefl, List.filter_cons, hrest h1]
      · simp [nodePut, h1, h2, List.filter_cons, hrest h1]

theorem put_ok (b b1 : Bucket) (k v : Bytes) (h : Put b k v = .ok b1) : b1 = nodePut k v b := by
  unfold Put at h
  split_ifs at h
  split at h
  · split_ifs at h
    injection h with h
    exact h.symm
  · injection h with h
    exact h.symm

theorem put_sorted (b b1 : Bucket) (k v : Bytes) (hs : SortedKeys b)
    (h : Put b k v = .ok b1) : SortedKeys b1 := by
  rw [put_ok b b1 k v h]
  exact nodePut_sorted k v b hs

theorem put_put (b b1 : Bucket) (k v : Bytes) (h : Put b k v = .ok b1) :
    Put b1 k v = .ok b1 := by
  have hb1 := put_ok b b1 k v h
  obtain ⟨r, hr⟩ := seek_nodePut k v b
  unfold Put at h ⊢
  split_ifs at h ⊢
  rw [hb1, hr]
  simp [nodePut_idem]

/-! ## The three cursor loops -/

theorem hasAttestationLoop_iff (root : Bytes) (cur : Bucket) :
    hasAttestationLoop root cur = true ↔
      ∃ pre k v post, cur = pre ++ (k, some v) :: post ∧
        (∀ e ∈ pre, bytesContains e.1 root = true ∧ e.2 = none) ∧
        bytesContains k root = true := by
  induction cur with
  | nil => simp [hasAttestationLoop]
  | cons e rest ih =>
    obtain ⟨k1, v1⟩ := e
    by_cases hc : bytesContains k1 root = true
    · cases v1 with
      | some v1 =>
        simp only [hasAttestationLoop, hc, if_true, true_iff]
        exact ⟨[], k1, v1, rest, rfl, by simp, hc⟩
      | none =>
        simp only [hasAttestationLoop, hc, if_true]
        rw [ih]
        constructor
        · rintro ⟨pre, k, v, post, h1, h2, h3⟩
          refine ⟨(k1, none) :: pre, k, v, post, by simp [h1], ?_, h3⟩
          intro e he
          rcases List.mem_cons.1 he with h | h
          · subst h
            exact ⟨hc, rfl⟩
          · exact h2 e h
        · rintro ⟨pre, k, v, post, h1, h2, h3⟩
          cases pre with
          | nil => simp at h1
          | cons p pre =>
            simp only [List.cons_append, List.cons.injEq] at h1
            exact ⟨pre, k, v, post, h1.2, fun e he => h2 e (List.mem_cons_of_mem _ he), h3⟩
    · simp only [hasAttestationLoop, hc, if_false, Bool.false_eq_true, false_iff]
      rintro ⟨pre, k, v, post, h1, h2, h3⟩
      cases pre with
      | nil =>
        simp only [List.nil_append, List.cons.injEq, Prod.mk.injEq] at h1
        exact hc (h1.1.1 ▸ h3)
      | cons p pre =>
        simp only [List.cons_append, List.cons.injEq] at h1
        have hp := (h2 p (List.mem_cons_self _ _)).1
        rw [← h1.1] at hp
        exact hc hp

theorem attestationLoop_of_reach (c : Codec) (root : Bytes) (pre : Bucket) (k v : Bytes)
    (post : Bucket) (h2 : ∀ e ∈ pre, bytesContains e.1 root = true ∧ e.2 = none)
    (h3 : bytesContains k root = true) :
    attestationLoop c root (pre ++ (k, some v) :: post) = c.unmarshal v := by
  induction pre with
  | nil => simp [attestationLoop, h3]
  | cons p pre ih =>
    obtain ⟨k1, v1⟩ := p
    have hp := h2 (k1, v1) (List.mem_cons_self _ _)
    simp only at hp
    obtain ⟨hp1, hp2⟩ := hp
    subst hp2
    simp only [List.cons_append, attestationLoop, hp1, if_true]
    exact ih (fun e he => h2 e (List.mem_cons_of_mem _ he))

theorem attestationLoop_of_not_has (c : Codec) (root : Bytes) (cur : Bucket)
    (h : hasAttestationLoop root cur = false) :
    attestationLoop c root cur = .ok emptyAttestation := by
  induction cur with
  | nil => rfl
  | cons e rest ih =>
    obtain ⟨k1, v1⟩ := e
    by_cases hc : bytesContains k1 root = true
    · cases v1 with
      | some v1 => simp [hasAttestationLoop, hc] at h
      | none =>
        simp only [hasAttestationLoop, hc, if_true] at h
        simp only [attestationLoop, hc, if_true]
        exact ih h
    · simp [attestationLoop, hc]

theorem deleteAttestationLoop_of_absent (root : Bytes) (bkt cur : Bucket)
    (h : ∀ e ∈ cur, bytesContains e.1 root = false) :
    deleteAttestationLoop root bkt cur = .ok bkt := by
  cases cur with
  | nil => rfl
  | cons e rest =>
    obtain ⟨k1, v1⟩ := e
    have := h (k1, v1) (List.mem_cons_self _ _)
    simp only at this
    simp [deleteAttestationLoop, this]

theorem mem_of_mem_seek (db : Bucket) (key : Bytes) (e : Bytes × Option Bytes)
    (h : e ∈ seek db key) : e ∈ db :=
  (List.dropWhile_suffix _).subset h

/-! ## Saving -/

theorem generateAttestationKey_ok (c : Codec) (att : ethpb.Attestation) (key : Bytes)
    (h : generateAttestationKey c att = .ok key) :
    ∃ cl root, c.hashTreeRoot att = .ok root ∧ key = keyFields c cl ++ root.bytes := by
  unfold generateAttestationKey at h
  split at h
  · cases h
  · split at h
    · cases h
    · rename_i cl _
      split at h
      · cases h
      · rename_i root hr
        injection h with h
        exact ⟨cl, root, hr, h.symm⟩

theorem saveAttestation_ok (c : Codec) (db db1 : Bucket) (att : ethpb.Attestation)
    (h : SaveAttestation c db att = (none, db1)) :
    ∃ key enc, generateAttestationKey c att = .ok key ∧ c.marshal att = .ok enc ∧
      Put db key enc = .ok db1 := by
  unfold SaveAttestation at h
  split at h
  · cases h
  · rename_i key hk
    split at h
    · cases h
    · rename_i enc he
      refine ⟨key, enc, hk, he, ?_⟩
      unfold Update at h
      split at h
      · rename_i db2 hp
        simp only [Prod.mk.injEq, true_and] at h
        rw [← h]
        exact hp
      · cases h

theorem keyFields_head (c : Codec) (cl : ethpb.Crosslink) :
    ∃ t, keyFields c cl = 115 :: t := by
  simp [keyFields, strShard]

/-- C1 (what the code does): when an attestation whose content root starts
with a byte above 0x73 is saved into the empty store, the save succeeds, yet
`HasAttestation` on that root is false and `Attestation` returns the empty
message with no error. -/
theorem saved_attestation_not_found (c : Codec) (att : ethpb.Attestation) (root : Hash32)
    (x : Nat) (rest : Bytes) (db1 : Bucket)
    (_hroot : c.hashTreeRoot att = .ok root) (hx : root.bytes = x :: rest) (hgt : 115 < x)
    (hsave : SaveAttestation c [] att = (none, db1)) :
    (HasAttestation db1 root).1 = false ∧
      (Attestation c db1 root).1 = .ok emptyAttestation := by
  obtain ⟨key, enc, hk, _, hp⟩ := saveAttestation_ok c [] db1 att hsave
  obtain ⟨cl, root1, hr1, hkey⟩ := generateAttestationKey_ok c att key hk
  obtain ⟨t, ht⟩ := keyFields_head c cl
  have hdb := put_ok [] db1 key enc hp
  have hlt : bytesLt key root.bytes = true := by
    rw [hkey, ht, hx]
    exact bytesLt_cons_of_lt 115 x _ _ hgt
  have hseek : seek db1 root.bytes = [] := by
    rw [hdb]
    simp [nodePut, seek, List.dropWhile, hlt]
  simp [HasAttestation, Attestation, View, hseek, hasAttestationLoop, attestationLoop]

set_option maxRecDepth 100000 in
theorem saved_attestation_not_found_witness :
    (HasAttestation (SaveAttestation sampleCodec [] (sampleAtt 0 255)).2 (sampleRoot 255)).1 = false ∧
      (Attestation sampleCodec (SaveAttestation sampleCodec [] (sampleAtt 0 255)).2
        (sampleRoot 255)).1 = .ok emptyAttestation :=
  saved_attestation_not_found sampleCodec (sampleAtt 0 255) (sampleRoot 255) 255
    (List.replicate 31 255) (SaveAttestation sampleCodec [] (sampleAtt 0 255)).2
    rfl rfl (by decide) (by decide)

set_option maxRecDepth 100000 in
/-- C2 (what the code does): in the sample store the key of `sampleAtt 1 2`
contains the root `sampleRoot 2`, and it is the first stored key that does,
yet `Attestation` returns the empty message: the cursor is placed on the key
of `sampleAtt 0 1`, which does not contain the root, and the loop ends. -/
theorem lookup_misses_contained_root :
    SortedKeys sampleStore ∧
      (sampleStore.find? (fun e => bytesContains e.1 (sampleRoot 2).bytes)).map
          (fun e => e.2.map sampleCodec.unmarshal) = some (some (.ok (sampleAtt 1 2))) ∧
      (Attestation sampleCodec sampleStore (sampleRoot 2)).1 = .ok emptyAttestation ∧
      emptyAttestation ≠ sampleAtt 1 2 :=
  ⟨by decide, rfl, rfl, by decide⟩

/-- C3: `HasAttestation` is true exactly when the scan of `Attestation`
reaches a stored record; in that case `Attestation` returns the decoding of
that record, otherwise its empty default; and `HasAttestation` hands the
store back unchanged. -/
theorem hasAttestation_iff_scan_reaches (c : Codec) (db : Bucket) (root : Hash32) :
    ((HasAttestation db root).1 = true ↔ ∃ k v, Reaches db root.bytes k v) ∧
      (∀ k v, Reaches db root.bytes k v →
        (k, some v) ∈ db ∧ (Attestation c db root).1 = c.unmarshal v) ∧
      ((HasAttestation db root).1 = false →
        (Attestation c db root).1 = .ok emptyAttestation) ∧
      (HasAttestation db root).2 = db := by
  refine ⟨?_, ?_, ?_, rfl⟩
  · simp only [HasAttestation, View, hasAttestationLoop_iff, Reaches]
    constructor
    · rintro ⟨pre, k, v, post, h⟩
      exact ⟨k, v, pre, post, h⟩
    · rintro ⟨k, v, pre, post, h⟩
      exact ⟨pre, k, v, post, h⟩
  · rintro k v ⟨pre, post, h1, h2, h3⟩
    constructor
    · apply mem_of_mem_seek db root.bytes
      rw [h1]
      simp
    · simp only [Attestation, View, h1]
      exact attestationLoop_of_reach c root.bytes pre k v post h2 h3
  · intro h
    exact attestationLoop_of_not_has c root.bytes _ h

set_option maxRecDepth 100000 in
theorem hasAttestation_iff_scan_reaches_witness :
    (HasAttestation sampleStore (sampleRoot 1)).1 = true ∧
      (Attestation sampleCodec sampleStore (sampleRoot 1)).1 = .ok (sampleAtt 0 1) ∧
      ((HasAttestation sampleStore (sampleRoot 2)).1 = false ∧
        (Attestation sampleCodec sampleStore (sampleRoot 2)).1 = .ok emptyAttestation) :=
  have hreach : Reaches sampleStore (sampleRoot 1).bytes
      ((generateAttestationKey sampleCodec (sampleAtt 0 1)).toOption.getD [])
      ((sampleCodec.marshal (sampleAtt 0 1)).toOption.getD []) :=
    ⟨[], (seek sampleStore (sampleRoot 1).bytes).tail, by decide, by simp, by decide⟩
  ⟨(hasAttestation_iff_scan_reaches sampleCodec sampleStore (sampleRoot 1)).1.2 ⟨_, _, hreach⟩,
   ((hasAttestation_iff_scan_reaches sampleCodec sampleStore (sampleRoot 1)).2.1 _ _ hreach).2,
   by decide,
   (hasAttestation_iff_scan_reaches sampleCodec sampleStore (sampleRoot 2)).2.2.1 (by decide)⟩

/-- C4: when no stored key contains the root, `DeleteAttestation` returns
no error and leaves the store as it was; so a second call, once no stored
key contains the root after the first, also returns no error and changes
nothing. -/
theorem deleteAttestation_absent_noop (db : Bucket) (root : Hash32) :
    ((∀ e ∈ db, bytesContains e.1 root.bytes = false) →
        DeleteAttestation db root = (none, db)) ∧
      ((∀ e ∈ (DeleteAttestation db root).2, bytesContains e.1 root.bytes = false) →
        DeleteAttestation (DeleteAttestation db root).2 root =
          (none, (DeleteAttestation db root).2)) := by
  have key : ∀ d : Bucket, (∀ e ∈ d, bytesContains e.1 root.bytes = false) →
      DeleteAttestation d root = (none, d) := by
    intro d h
    have h1 := deleteAttestationLoop_of_absent root.bytes d (seek d root.bytes)
      (fun e he => h e (mem_of_mem_seek d root.bytes e he))
    simp [DeleteAttestation, Update, h1]
  exact ⟨key db, key _⟩

set_option maxRecDepth 100000 in
theorem deleteAttestation_absent_noop_witness :
    DeleteAttestation sampleStore (sampleRoot 7) = (none, sampleStore) ∧
      DeleteAttestation (DeleteAttestation sampleStore (sampleRoot 1)).2 (sampleRoot 1) =
        (none, (DeleteAttestation sampleStore (sampleRoot 1)).2) :=
  ⟨(deleteAttestation_absent_noop sampleStore (sampleRoot 7)).1 (by decide),
   (deleteAttestation_absent_noop sampleStore (sampleRoot 1)).2 (by decide)⟩

set_option maxRecDepth 100000 in
/-- C5 (what the code does): in the sample store a stored key contains the
root `sampleRoot 2`, yet `DeleteAttestation` on that root removes nothing;
and after saving `sampleAtt 0 255` into the empty store, deleting by its
content root leaves the saved record in the store. -/
theorem delete_leaves_matching_record :
    (∃ e ∈ sampleStore, bytesContains e.1 (sampleRoot 2).bytes = true) ∧
      DeleteAttestation sampleStore (sampleRoot 2) = (none, sampleStore) ∧
      sampleCodec.hashTreeRoot (sampleAtt 0 255) = .ok (sampleRoot 255) ∧
      DeleteAttestation (SaveAttestation sampleCodec [] (sampleAtt 0 255)).2 (sampleRoot 255) =
        (none, (SaveAttestation sampleCodec [] (sampleAtt 0 255)).2) ∧
      (SaveAttestation sampleCodec [] (sampleAtt 0 255)).2.length = 1 :=
  ⟨by decide, by decide, rfl, by decide, by decide⟩

/-- C6: saving the same attestation twice leaves the store, and the
returned error, exactly as after saving it once; when the store is sorted
and the save succeeds there is exactly one record under the generated key,
and the second save does not change the number of records. -/
theorem saveAttestation_idempotent (c : Codec) (db : Bucket) (att : ethpb.Attestation) :
    SaveAttestation c (SaveAttestation c db att).2 att = SaveAttestation c db att ∧
      (∀ key, SortedKeys db → (SaveAttestation c db att).1 = none →
        generateAttestationKey c att = .ok key →
        (((SaveAttestation c db att).2).filter (fun e => decide (e.1 = key))).length = 1 ∧
        (SaveAttestation c (SaveAttestation c db att).2 att).2.length =
          (SaveAttestation c db att).2.length) := by
  have h1 : SaveAttestation c (SaveAttestation c db att).2 att = SaveAttestation c db att := by
    unfold SaveAttestation
    cases hk : generateAttestationKey c att with
    | error e => simp [hk]
    | ok key =>
      cases he : c.marshal att with
      | error e => simp [hk, he]
      | ok enc =>
        cases hp : Put db key enc with
        | error e => simp [hk, he, Update, hp]
        | ok db1 => simp [hk, he, Update, hp, put_put db db1 key enc hp]
  refine ⟨h1, ?_⟩
  intro key hs hnone hk
  rw [h1]
  refine ⟨?_, rfl⟩
  have hsave : SaveAttestation c db att = (none, (SaveAttestation c db att).2) :=
    Prod.ext hnone rfl
  obtain ⟨key1, enc, hk1, _, hp⟩ := saveAttestation_ok c db _ att hsave
  rw [hk] at hk1
  injection hk1 with hk1
  subst hk1
  rw [put_ok db _ key enc hp]
  exact count_nodePut key enc db hs

set_option maxRecDepth 100000 in
theorem saveAttestation_idempotent_witness :
    SaveAttestation sampleCodec (SaveAttestation sampleCodec sampleStore (sampleAtt 0 9)).2
        (sampleAtt 0 9) = SaveAttestation sampleCodec sampleStore (sampleAtt 0 9) ∧
      (((SaveAttestation sampleCodec sampleStore (sampleAtt 0 9)).2).filter
          (fun e => decide (e.1 = sampleKey 0 9))).length = 1 ∧
      (SaveAttestation sampleCodec (SaveAttestation sampleCodec sampleStore (sampleAtt 0 9)).2
          (sampleAtt 0 9)).2.length =
        (SaveAttestation sampleCodec sampleStore (sampleAtt 0 9)).2.length :=
  ⟨(saveAttestation_idempotent sampleCodec sampleStore (sampleAtt 0 9)).1,
   (saveAttestation_idempotent sampleCodec sampleStore (sampleAtt 0 9)).2 (sampleKey 0 9)
     (by decide) (by decide) rfl⟩

/-- C7: two attestations with different content roots get different keys,
so after saving one and then the other both records are in the store and
the first is the record that was written for it; and two attestations with
the same crosslink and the same content root get the same key. -/
theorem generateAttestationKey_separates (c : Codec) (a b : ethpb.Attestation) :
    (∀ ka kb, generateAttestationKey c a = .ok ka → generateAttestationKey c b = .ok kb →
        c.hashTreeRoot a ≠ c.hashTreeRoot b →
        ka ≠ kb ∧
        ∀ db dba dbab ea eb, c.marshal a = .ok ea → c.marshal b = .ok eb →
          SaveAttestation c db a = (none, dba) → SaveAttestation c dba b = (none, dbab) →
          (ka, some ea) ∈ dba ∧ (ka, some ea) ∈ dbab ∧ (kb, some eb) ∈ dbab) ∧
      (crosslinkOf a = crosslinkOf b → c.hashTreeRoot a = c.hashTreeRoot b →
        generateAttestationKey c a = generateAttestationKey c b) := by
  constructor
  · intro ka kb hka hkb hne
    have hkk : ka ≠ kb := by
      obtain ⟨cla, ra, hra, hka1⟩ := generateAttestationKey_ok c a ka hka
      obtain ⟨clb, rb, hrb, hkb1⟩ := generateAttestationKey_ok c b kb hkb
      intro heq
      rw [hka1, hkb1] at heq
      have hlen : ra.bytes.length = rb.bytes.length := by rw [ra.size, rb.size]
      have hbytes := (List.append_inj' heq hlen).2
      have : ra = rb := by
        cases ra
        cases rb
        simp only at hbytes
        subst hbytes
        rfl
      exact hne (by rw [hra, hrb, this])
    refine ⟨hkk, ?_⟩
    intro db dba dbab ea eb hea heb hsa hsb
    obtain ⟨ka1, ea1, hka1, hea1, hpa⟩ := saveAttestation_ok c db dba a hsa
    obtain ⟨kb1, eb1, hkb1, heb1, hpb⟩ := saveAttestation_ok c dba dbab b hsb
    rw [hka] at hka1
    rw [hkb] at hkb1
    rw [hea] at hea1
    rw [heb] at heb1
    injection hka1 with hka1
    injection hkb1 with hkb1
    injection hea1 with hea1
    injection heb1 with heb1
    subst hka1 hkb1 hea1 heb1
    have hdba := put_ok db dba ka ea hpa
    have hdbab := put_ok dba dbab kb eb hpb
    have hin : (ka, some ea) ∈ dba := by
      rw [hdba]
      exact mem_nodePut_self ka ea db
    refine ⟨hin, ?_, ?_⟩
    · rw [hdbab]
      exact mem_nodePut_of_ne kb eb dba (ka, some ea) hin hkk
    · rw [hdbab]
      exact mem_nodePut_self kb eb dba
  · intro hcl hroot
    unfold crosslinkOf at hcl
    unfold generateAttestationKey
    rw [hroot]
    cases hda : a.Data with
    | none =>
      cases hdb : b.Data with
      | none => rfl
      | some db1 =>
        rw [hda, hdb] at hcl
        simp only [Option.bind] at hcl
        simp [← hcl]
    | some da =>
      cases hdb : b.Data with
      | none =>
        rw [hda, hdb] at hcl
        simp only [Option.bind] at hcl
        simp [hcl]
      | some db1 =>
        rw [hda, hdb] at hcl
        simp only [Option.bind] at hcl
        simp [hcl]

set_option maxRecDepth 100000 in
theorem generateAttestationKey_separates_witness :
    (sampleKey 0 1 ≠ sampleKey 0 2 ∧
      (sampleKey 0 1, some (sampleEnc 0 1)) ∈
        (SaveAttestation sampleCodec [] (sampleAtt 0 1)).2 ∧
      (sampleKey 0 1, some (sampleEnc 0 1)) ∈
        (SaveAttestation sampleCodec (SaveAttestation sampleCodec [] (sampleAtt 0 1)).2
          (sampleAtt 0 2)).2 ∧
      (sampleKey 0 2, some (sampleEnc 0 2)) ∈
        (SaveAttestation sampleCodec (SaveAttestation sampleCodec [] (sampleAtt 0 1)).2
          (sampleAtt 0 2)).2) ∧
      sampleAtt 0 1 ≠ sampleAttLong 0 1 ∧
      generateAttestationKey sampleCodec (sampleAtt 0 1) =
        generateAttestationKey sampleCodec (sampleAttLong 0 1) :=
  have h := (generateAttestationKey_separates sampleCodec (sampleAtt 0 1) (sampleAtt 0 2)).1
    (sampleKey 0 1) (sampleKey 0 2) rfl rfl (by
      intro heq
      injection heq with heq
      revert heq
      decide)
  ⟨⟨h.1, h.2 [] _ _ (sampleEnc 0 1) (sampleEnc 0 2) rfl rfl (by decide) (by decide)⟩,
   by decide,
   (generateAttestationKey_separates sampleCodec (sampleAtt 0 1) (sampleAttLong 0 1)).2 rfl rfl⟩

end kv

namespace forkchoice

/-! ## Selection of the best child -/

theorem childLe_refl (w : Bytes → Nat) (x : Bytes) : ChildLe w x x :=
  Or.inr ⟨rfl, Or.inl rfl⟩

theorem childLe_trans (w : Bytes → Nat) (x y z : Bytes) (h1 : ChildLe w x y)
    (h2 : ChildLe w y z) : ChildLe w x z := by
  unfold ChildLe at *
  rcases h1 with h1 | ⟨h1, h1b⟩
  · rcases h2 with h2 | ⟨h2, _⟩
    · exact Or.inl (by omega)
    · exact Or.inl (by omega)
  · rcases h2 with h2 | ⟨h2, h2b⟩
    · exact Or.inl (by omega)
    · refine Or.inr ⟨by omega, ?_⟩
      rcases h1b with h | h
      · subst h
        exact h2b
      · rcases h2b with h3 | h3
        · subst h3
          exact Or.inr h
        · exact Or.inr (bytesLt_trans x y z h h3)

theorem childLe_antisymm (w : Bytes → Nat) (x y : Bytes) (h1 : ChildLe w x y)
    (h2 : ChildLe w y x) : x = y := by
  unfold ChildLe at *
  rcases h1 with h1 | ⟨h1, h1b⟩
  · rcases h2 with h2 | ⟨h2, _⟩ <;> omega
  · rcases h2 with h2 | ⟨_, h2b⟩
    · omega
    · rcases h1b with h | h
      · exact h
      · rcases h2b with h3 | h3
        · exact h3.symm
        · have := bytesLt_asymm x y h
          rw [h3] at this
          exact absurd this (by simp)

theorem better_spec (w : Bytes → Nat) (best cand : Bytes) :
    (better w best cand = best ∨ better w best cand = cand) ∧
      ChildLe w best (better w best cand) ∧ ChildLe w cand (better w best cand) := by
  unfold better
  split_ifs with h
  · refine ⟨Or.inr rfl, ?_, childLe_refl w cand⟩
    rcases h with h | ⟨h, hb⟩
    · exact Or.inl h
    · exact Or.inr ⟨h.symm, Or.inr hb⟩
  · refine ⟨Or.inl rfl, childLe_refl w best, ?_⟩
    rw [not_or] at h
    obtain ⟨h1, h2⟩ := h
    by_cases hw : w cand < w best
    · exact Or.inl hw
    · have heq : w cand = w best := by omega
      refine Or.inr ⟨heq, ?_⟩
      have hb : bytesLt best cand = false := by
        cases hbc : bytesLt best cand with
        | false => rfl
        | true => exact absurd ⟨heq, hbc⟩ h2
      rcases bytesLt_total best cand hb with h3 | h3
      · exact Or.inl h3.symm
      · exact Or.inr h3

theorem foldl_better_spec (w : Bytes → Nat) : ∀ (cs : List Bytes) (c : Bytes),
    cs.foldl (better w) c ∈ c :: cs ∧ ∀ x ∈ c :: cs, ChildLe w x (cs.foldl (better w) c)
  | [], c => by simp [childLe_refl]
  | d :: ds, c => by
    obtain ⟨hm, hle⟩ := foldl_better_spec w ds (better w c d)
    obtain ⟨hsel, hc, hd⟩ := better_spec w c d
    simp only [List.foldl_cons]
    constructor
    · rcases List.mem_cons.1 hm with h | h
      · rw [h]
        rcases hsel with h1 | h1 <;> simp [h1]
      · simp [h]
    · intro x hx
      have htop := hle (better w c d) (List.mem_cons_self _ _)
      rcases List.mem_cons.1 hx with h | h
      · subst h
        exact childLe_trans w _ _ _ hc htop
      · rcases List.mem_cons.1 h with h1 | h1
        · subst h1
          exact childLe_trans w _ _ _ hd htop
        · exact hle x (List.mem_cons_of_mem _ h1)

theorem tieBreak_of_select (w : Bytes → Nat) (blocks : BlockStore) (cur y : Bytes)
    (h : selectChild w (children blocks cur) = some y) : TieBreak w blocks cur y := by
  cases hc : children blocks cur with
  | nil => simp [hc, selectChild] at h
  | cons c cs =>
    rw [hc] at h
    simp only [selectChild, Option.some.injEq] at h
    obtain ⟨hm, hle⟩ := foldl_better_spec w cs c
    rw [h] at hm hle
    rw [TieBreak, hc]
    refine ⟨hm, ?_, ?_⟩
    · intro x hx
      rcases hle x hx with h1 | ⟨h1, _⟩ <;> omega
    · intro x hx heq
      rcases hle x hx with h1 | ⟨_, h1⟩
      · omega
      · exact h1

theorem descends_of_tieBreak (w : Bytes → Nat) (blocks : BlockStore) (x y : Bytes)
    (h : TieBreak w blocks x y) : Descends w blocks x y := by
  obtain ⟨h1, h2, _⟩ := h
  refine ⟨h1, ?_⟩
  intro b1 hb1 b2 _ hlt heq
  have := h2 b1 hb1
  subst heq
  omega

/-! ## The walk -/

theorem mem_of_lookup {β : Type} (l : List (Bytes × β)) (a : Bytes) (b : β)
    (h : l.lookup a = some b) : (a, b) ∈ l := by
  induction l with
  | nil => simp at h
  | cons e rest ih =>
    obtain ⟨k, v⟩ := e
    by_cases hk : a = k
    · subst hk
      simp only [List.lookup_cons, beq_self_eq_true] at h
      injection h with h
      subst h
      exact List.mem_cons_self _ _
    · have hbeq : (a == k) = false := by simpa using hk
      simp only [List.lookup_cons, hbeq] at h
      exact List.mem_cons_of_mem _ (ih h)

theorem mem_children (blocks : BlockStore) (cur c : Bytes) (h : c ∈ children blocks cur) :
    ∃ b, (c, b) ∈ blocks ∧ b.parentRoot = cur := by
  simp only [children, List.mem_map, List.mem_filter, decide_eq_true_eq] at h
  obtain ⟨e, ⟨he, hp⟩, hc⟩ := h
  exact ⟨e.2, by rw [← hc]; exact he, hp⟩

theorem selectChild_none (w : Bytes → Nat) (l : List Bytes) (h : selectChild w l = none) :
    l = [] := by
  cases l with
  | nil => rfl
  | cons c cs => simp [selectChild] at h

theorem headTrace_spec (w : Bytes → Nat) (blocks : BlockStore) :
    ∀ (fuel : Nat) (cur : Bytes) (t : List Bytes), headTrace w blocks fuel cur = some t →
      t.head? = some cur ∧ List.Chain' (TieBreak w blocks) t ∧
      ∃ leaf, t.getLast? = some leaf ∧ children blocks leaf = [] ∧
        headLoop w blocks fuel cur = some leaf
  | 0, _, _, h => by simp [headTrace] at h
  | fuel + 1, cur, t, h => by
    simp only [headTrace] at h
    cases hc : selectChild w (children blocks cur) with
    | none =>
      rw [hc] at h
      simp only [Option.some.injEq] at h
      subst h
      exact ⟨rfl, List.chain'_singleton _, cur, rfl, selectChild_none w _ hc,
        by simp [headLoop, hc]⟩
    | some best =>
      rw [hc] at h
      simp only [Option.map_eq_some'] at h
      obtain ⟨t1, ht1, ht⟩ := h
      obtain ⟨hhead, hchain, leaf, hlast, hleaf, hloop⟩ :=
        headTrace_spec w blocks fuel _ t1 ht1
      subst ht
      cases t1 with
      | nil => simp at hhead
      | cons b t2 =>
        simp only [List.head?_cons, Option.some.injEq] at hhead
        subst hhead
        refine ⟨rfl, ?_, leaf, ?_, hleaf, ?_⟩
        · exact List.Chain'.cons (tieBreak_of_select w blocks cur b hc) hchain
        · rw [List.getLast?_cons_cons]
          exact hlast
        · simp only [headLoop, hc]
          exact hloop

theorem headTrace_total (w : Bytes → Nat) (blocks : BlockStore) (bound : Nat)
    (hs : SlotsAscend blocks bound) :
    ∀ (fuel : Nat) (cur : Bytes) (b : Block), (cur, b) ∈ blocks → bound - b.slot < fuel →
      ∃ t, headTrace w blocks fuel cur = some t
  | 0, _, _, _, h => by omega
  | fuel + 1, cur, b, hb, hf => by
    simp only [headTrace]
    cases hc : selectChild w (children blocks cur) with
    | none => exact ⟨[cur], rfl⟩
    | some best =>
      have hm := (tieBreak_of_select w blocks cur best hc).1
      obtain ⟨cb, hcb, hpar⟩ := mem_children blocks cur _ hm
      have h1 := hs.1 (cur, b) hb _ hcb hpar
      have h2 := hs.2 _ hcb
      simp only at h1 h2
      obtain ⟨t, ht⟩ := headTrace_total w blocks bound hs fuel _ cb hcb (by omega)
      exact ⟨cur :: t, by simp [ht]⟩

theorem ancestor_below (blocks : BlockStore) (fuel : Nat) (target : Bytes) (tb : Block)
    (slot : Nat) (h1 : blockByRoot blocks target = some tb) (h2 : tb.slot < slot) :
    ancestor blocks fuel target slot = none := by
  cases fuel with
  | zero => rfl
  | succ n =>
    have h3 : ¬ tb.slot = slot := by omega
    simp [ancestor, h1, h2, h3]

/-! ## Independence from the enumeration order -/

theorem lookup_none_of_not_mem {β : Type} (l : List (Bytes × β)) (a : Bytes)
    (h : a ∉ l.map (fun e => e.1)) : l.lookup a = none := by
  induction l with
  | nil => rfl
  | cons e rest ih =>
    obtain ⟨k, v⟩ := e
    simp only [List.map_cons, List.mem_cons, not_or] at h
    have hbeq : (a == k) = false := by simpa using h.1
    simp only [List.lookup_cons, hbeq]
    exact ih h.2

theorem lookup_perm {β : Type} (l1 l2 : List (Bytes × β)) (h : l1.Perm l2)
    (nd : (l1.map (fun e => e.1)).Nodup) (a : Bytes) : l1.lookup a = l2.lookup a := by
  induction h with
  | nil => rfl
  | cons e _ ih =>
    obtain ⟨k, v⟩ := e
    simp only [List.map_cons, List.nodup_cons] at nd
    simp only [List.lookup_cons]
    rw [ih nd.2]
  | swap e1 e2 l =>
    obtain ⟨k1, v1⟩ := e1
    obtain ⟨k2, v2⟩ := e2
    simp only [List.map_cons, List.nodup_cons, List.mem_cons, not_or] at nd
    have hne : ¬ k2 = k1 := nd.1.1
    simp only [List.lookup_cons]
    by_cases h1 : a = k1
    · subst h1
      have hb : (a == k2) = false := by simpa using fun h => hne h.symm
      simp [hb]
    · have hb : (a == k1) = false := by simpa using h1
      simp [hb]
  | trans h1 _ ih1 ih2 =>
    rw [ih1 nd]
    exact ih2 ((h1.map _).nodup_iff.1 nd)

theorem ancestor_perm (b1 b2 : BlockStore) (h : b1.Perm b2)
    (nd : (b1.map (fun e => e.1)).Nodup) :
    ∀ (fuel : Nat) (root : Bytes) (slot : Nat),
      ancestor b1 fuel root slot = ancestor b2 fuel root slot
  | 0, _, _ => rfl
  | fuel + 1, root, slot => by
    simp only [ancestor, blockByRoot, lookup_perm b1 b2 h nd root]
    cases b2.lookup root with
    | none => rfl
    | some b =>
      simp only
      rw [ancestor_perm b1 b2 h nd fuel b.parentRoot slot]

theorem weight_perm (isActive : Validator → Bool) (b1 b2 : BlockStore) (h : b1.Perm b2)
    (nd : (b1.map (fun e => e.1)).Nodup) (votes : List LatestVote) (st : StateSnapshot) :
    weight isActive b1 votes st = weight isActive b2 votes st := by
  funext child
  have hc : ∀ slot i v, contribution isActive b1 votes child slot i v =
      contribution isActive b2 votes child slot i v := by
    intro slot i v
    simp only [contribution, h.length_eq]
    cases latestVote votes i with
    | none => rfl
    | some target =>
      simp only
      rw [ancestor_perm b1 b2 h nd b2.length target slot]
  simp only [weight, blockByRoot, lookup_perm b1 b2 h nd child, hc]

theorem children_perm (b1 b2 : BlockStore) (h : b1.Perm b2) (root : Bytes) :
    (children b1 root).Perm (children b2 root) :=
  (h.filter _).map _

theorem selectChild_perm (w : Bytes → Nat) (l1 l2 : List Bytes) (h : l1.Perm l2) :
    selectChild w l1 = selectChild w l2 := by
  cases l1 with
  | nil =>
    have : l2 = [] := List.Perm.nil_eq h |>.symm
    subst this
    rfl
  | cons c cs =>
    cases l2 with
    | nil => exact absurd h.symm (List.not_perm_nil_cons c cs)
    | cons d ds =>
      simp only [selectChild, Option.some.injEq]
      obtain ⟨hm1, hle1⟩ := foldl_better_spec w cs c
      obtain ⟨hm2, hle2⟩ := foldl_better_spec w ds d
      exact childLe_antisymm w _ _ (hle2 _ (h.subset hm1)) (hle1 _ (h.symm.subset hm2))

theorem headLoop_perm (w : Bytes → Nat) (b1 b2 : BlockStore) (h : b1.Perm b2) :
    ∀ (fuel : Nat) (cur : Bytes), headLoop w b1 fuel cur = headLoop w b2 fuel cur
  | 0, _ => rfl
  | fuel + 1, cur => by
    simp only [headLoop, selectChild_perm w _ _ (children_perm b1 b2 h cur)]
    cases selectChild w (children b2 cur) with
    | none => rfl
    | some best => exact headLoop_perm w b1 b2 h fuel best

theorem head_perm (isActive : Validator → Bool) (s : Store) (blocks2 : BlockStore)
    (h : blocks2.Perm s.blocks) (nd : (s.blocks.map (fun e => e.1)).Nodup) (fuel : Nat) :
    Head isActive fuel (withBlocks s blocks2) = Head isActive fuel s := by
  have nd2 : (blocks2.map (fun e => e.1)).Nodup := (h.map _).nodup_iff.2 nd
  simp only [Head, withBlocks, justifiedState, blockByRoot,
    lookup_perm blocks2 s.blocks h nd2, weight_perm isActive blocks2 s.blocks h nd2,
    headLoop_perm _ blocks2 s.blocks h]

/-- C8: `Head` starts at the justified root and, at every block, descends to
a child that no sibling strictly outweighs; a walk that ends visits a chain
of such descents from the justified root to a block without children, and
`Head` returns that block; when slots grow from parent to child the walk
ends within the fuel.  A vote whose target lies at a lower slot than the
child gives the child no weight. -/
theorem head_follows_heaviest_child (isActive : Validator → Bool) (s : Store) (jb : Block)
    (st : StateSnapshot) (bound fuel : Nat)
    (hblk : blockByRoot s.blocks s.justifiedCheckpt.root = some jb)
    (hst : justifiedState s = some st) :
    (∀ cur y, selectChild (weight isActive s.blocks s.latestVotes st)
        (children s.blocks cur) = some y →
        Descends (weight isActive s.blocks s.latestVotes st) s.blocks cur y) ∧
      (∀ t, headTrace (weight isActive s.blocks s.latestVotes st) s.blocks fuel
          s.justifiedCheckpt.root = some t →
        t.head? = some s.justifiedCheckpt.root ∧
        List.Chain' (Descends (weight isActive s.blocks s.latestVotes st) s.blocks) t ∧
        ∃ leaf, t.getLast? = some leaf ∧ children s.blocks leaf = [] ∧
          Head isActive fuel s = some (.ok leaf)) ∧
      (SlotsAscend s.blocks bound → bound < fuel →
        ∃ t, headTrace (weight isActive s.blocks s.latestVotes st) s.blocks fuel
          s.justifiedCheckpt.root = some t) ∧
      (∀ n target tb slot, blockByRoot s.blocks target = some tb → tb.slot < slot →
        ancestor s.blocks n target slot = none) := by
  refine ⟨?_, ?_, ?_, ?_⟩
  · intro cur y h
    exact descends_of_tieBreak _ _ _ _ (tieBreak_of_select _ _ _ _ h)
  · intro t ht
    obtain ⟨h1, h2, leaf, h3, h4, h5⟩ := headTrace_spec _ _ _ _ _ ht
    refine ⟨h1, h2.imp (fun {a b} h => descends_of_tieBreak _ _ a b h), leaf, h3, h4, ?_⟩
    simp [Head, hblk, hst, h5]
  · intro hs hf
    exact headTrace_total _ _ bound hs fuel _ jb (mem_of_lookup _ _ _ hblk) (by omega)
  · intro n target tb slot h1 h2
    exact ancestor_below _ n target tb slot h1 h2

set_option maxRecDepth 100000 in
theorem head_follows_heaviest_child_witness :
    (∃ t, headTrace (weight sampleActive (sampleStore 6).blocks (sampleStore 6).latestVotes
        sampleState) (sampleStore 6).blocks 5 (rootOf 71) = some t) ∧
      weight sampleActive (sampleStore 6).blocks (sampleStore 6).latestVotes
        sampleState (rootOf 1) = 6000000000 ∧
      weight sampleActive (sampleStore 6).blocks (sampleStore 6).latestVotes
        sampleState (rootOf 2) = 4000000000 ∧
      Head sampleActive 5 (sampleStore 6) = some (.ok (rootOf 1)) ∧
      Head sampleActive 5 (sampleStore 4) = some (.ok (rootOf 2)) :=
  ⟨(head_follows_heaviest_child sampleActive (sampleStore 6) ⟨0, [103]⟩
      sampleState 2 5 rfl rfl).2.2.1 (by decide) (by decide),
    by decide, by decide, rfl, rfl⟩

/-- C9: at every block the walk of `Head` selects a child of maximal weight
and, among the children of that weight, the one with the lexicographically
greatest root; and `Head` returns the same result over every enumeration
order of the same blocks (their roots being pairwise different). -/
theorem head_tie_break_greatest_root (isActive : Validator → Bool) (s : Store) (jb : Block)
    (st : StateSnapshot) (fuel : Nat)
    (hblk : blockByRoot s.blocks s.justifiedCheckpt.root = some jb)
    (hst : justifiedState s = some st) :
    (∀ cur y, selectChild (weight isActive s.blocks s.latestVotes st)
        (children s.blocks cur) = some y →
        TieBreak (weight isActive s.blocks s.latestVotes st) s.blocks cur y) ∧
      (∀ t, headTrace (weight isActive s.blocks s.latestVotes st) s.blocks fuel
          s.justifiedCheckpt.root = some t →
        List.Chain' (TieBreak (weight isActive s.blocks s.latestVotes st) s.blocks) t ∧
        Head isActive fuel s = (t.getLast?).map .ok) ∧
      (∀ blocks2 : BlockStore, blocks2.Perm s.blocks →
        (s.blocks.map (fun e => e.1)).Nodup →
        Head isActive fuel (withBlocks s blocks2) = Head isActive fuel s) := by
  refine ⟨?_, ?_, ?_⟩
  · intro cur y h
    exact tieBreak_of_select _ _ _ _ h
  · intro t ht
    obtain ⟨h1, h2, leaf, h3, _, h5⟩ := headTrace_spec _ _ _ _ _ ht
    refine ⟨h2, ?_⟩
    simp [Head, hblk, hst, h5, h3]
  · intro blocks2 hp nd
    exact head_perm isActive s blocks2 hp nd fuel

set_option maxRecDepth 100000 in
theorem head_tie_break_greatest_root_witness :
    Head sampleActive 5 (withBlocks (sampleStore 5) (sampleStore 5).blocks.reverse) =
        Head sampleActive 5 (sampleStore 5) ∧
      weight sampleActive (sampleStore 5).blocks (sampleStore 5).latestVotes sampleState
          (rootOf 1) =
        weight sampleActive (sampleStore 5).blocks (sampleStore 5).latestVotes sampleState
          (rootOf 2) ∧
      Head sampleActive 5 (sampleStore 5) = some (.ok (rootOf 2)) :=
  ⟨(head_tie_break_greatest_root sampleActive (sampleStore 5) ⟨0, [103]⟩ sampleState 5
      rfl rfl).2.2 _ (List.reverse_perm _) (by decide),
    by decide, rfl⟩

/-- C10: when the justified block is in the store, its state snapshot is
available and no stored block names it as parent, `Head` returns the
justified root without error (whatever the vote ledger holds, so also when
it is empty). -/
theorem head_of_childless_justified (isActive : Validator → Bool) (s : Store) (jb : Block)
    (st : StateSnapshot) (fuel : Nat)
    (hblk : blockByRoot s.blocks s.justifiedCheckpt.root = some jb)
    (hst : justifiedState s = some st)
    (hno : ∀ e ∈ s.blocks, e.2.parentRoot ≠ s.justifiedCheckpt.root) :
    Head isActive (fuel + 1) s = some (.ok s.justifiedCheckpt.root) := by
  have hc : children s.blocks s.justifiedCheckpt.root = [] := by
    simp only [children, List.map_eq_nil_iff, List.filter_eq_nil_iff, decide_eq_true_eq]
    exact hno
  simp [Head, hblk, hst, headLoop, hc, selectChild]

set_option maxRecDepth 100000 in
theorem head_of_childless_justified_witness :
    genesisOnly.latestVotes = [] ∧ Head sampleActive 1 genesisOnly = some (.ok (rootOf 71)) :=
  ⟨rfl, head_of_childless_justified sampleActive genesisOnly ⟨0, [103]⟩ sampleState 0
    rfl rfl (by decide)⟩

end forkchoice

namespace kv

open bolt

/-! ## The list query -/

theorem attestationsLoop_eq (c : Codec) : ∀ (db : Bucket) (acc : List ethpb.Attestation),
    attestationsLoop c db acc =
      match decodeAll c (records db) with
      | .ok l => .ok (acc ++ l)
      | .error e => .error e
  | [], acc => by simp [attestationsLoop, records, decodeAll]
  | (k, none) :: rest, acc => by
    have ih := attestationsLoop_eq c rest acc
    simp only [attestationsLoop, ih, records, List.filterMap_cons, Option.map_none']
  | (k, some v) :: rest, acc => by
    simp only [attestationsLoop, records, List.filterMap_cons, Option.map_some', decodeAll]
    cases hu : c.unmarshal v with
    | error e => rfl
    | ok att =>
      have ih := attestationsLoop_eq c rest (acc ++ [att])
      simp only [records] at ih
      simp only [ih]
      cases decodeAll c (List.filterMap (fun e => e.2.map (fun v => (e.1, v))) rest) with
      | error e => rfl
      | ok l => simp

theorem attestations_eq_decodeAll (c : Codec) (db : Bucket) (f : Option QueryFilter) :
    (Attestations c db f).1 = decodeAll c (records db) := by
  simp only [Attestations, View, attestationsLoop_eq c db []]
  cases decodeAll c (records db) with
  | error e => rfl
  | ok l => simp

theorem decodeAll_ok_iff (c : Codec) : ∀ (rs : List (Bytes × Bytes))
    (atts : List ethpb.Attestation),
    decodeAll c rs = .ok atts ↔ List.Forall₂ (fun r a => c.unmarshal r.2 = .ok a) rs atts
  | [], atts => by
    cases atts with
    | nil => simp [decodeAll]
    | cons a l => simp [decodeAll]
  | r :: rs, atts => by
    simp only [decodeAll]
    cases hu : c.unmarshal r.2 with
    | error e =>
      constructor
      · intro h
        cases h
      · intro h
        cases h with
        | cons h1 _ =>
          rw [hu] at h1
          cases h1
    | ok a =>
      cases hd : decodeAll c rs with
      | error e =>
        constructor
        · intro h
          cases h
        · intro h
          cases h with
          | cons h1 h2 =>
            rw [← decodeAll_ok_iff c rs _, hd] at h2
            cases h2
      | ok l =>
        have ih := (decodeAll_ok_iff c rs l).1 hd
        constructor
        · intro h
          injection h with h
          subst h
          exact List.Forall₂.cons hu ih
        · intro h
          cases h with
          | cons h1 h2 =>
            rw [hu] at h1
            injection h1 with h1
            rw [← decodeAll_ok_iff c rs _, hd] at h2
            injection h2 with h2
            subst h1 h2
            rfl

theorem decodeAll_error (c : Codec) : ∀ (rs : List (Bytes × Bytes)),
    (∃ r ∈ rs, ∃ e, c.unmarshal r.2 = .error e) → ∃ e, decodeAll c rs = .error e
  | [], h => by
    obtain ⟨r, hr, _⟩ := h
    cases hr
  | r :: rs, h => by
    simp only [decodeAll]
    cases hu : c.unmarshal r.2 with
    | error e => exact ⟨e, rfl⟩
    | ok a =>
      have h2 : ∃ r1 ∈ rs, ∃ e, c.unmarshal r1.2 = .error e := by
        obtain ⟨r1, hr1, e, he⟩ := h
        rcases List.mem_cons.1 hr1 with h3 | h3
        · subst h3
          rw [hu] at he
          cases he
        · exact ⟨r1, h3, e, he⟩
      obtain ⟨e, he⟩ := decodeAll_error c rs h2
      exact ⟨e, by simp [he]⟩

theorem mem_records (db : Bucket) (r : Bytes × Bytes) :
    r ∈ records db ↔ (r.1, some r.2) ∈ db := by
  simp only [records, List.mem_filterMap, Option.map_eq_some']
  constructor
  · rintro ⟨e, he, v, hv, hr⟩
    subst hr
    simp only
    rw [← hv]
    exact he
  · intro h
    exact ⟨(r.1, some r.2), h, r.2, rfl, rfl⟩

theorem records_sorted : ∀ (db : Bucket), SortedKeys db →
    List.Pairwise (fun r1 r2 => bytesLt r1.1 r2.1 = true) (records db)
  | [], _ => by simp [records]
  | (k, v) :: rest, hs => by
    have hs1 : ∀ e ∈ rest, bytesLt k e.1 = true := (List.pairwise_cons.1 hs).1
    have ih := records_sorted rest (List.pairwise_cons.1 hs).2
    cases v with
    | none => simpa [records] using ih
    | some v =>
      have hrec : records ((k, some v) :: rest) = (k, v) :: records rest := by
        simp [records]
      rw [hrec]
      refine List.pairwise_cons.2 ⟨?_, ih⟩
      intro r hr
      exact hs1 _ ((mem_records rest r).1 hr)

/-- C11: `Attestations` returns the decoded value of every stored record,
one result per record and in bucket order, which is ascending key order in a
sorted store; so the result is as long as the list of records; and it
returns an error when some stored value fails to decode.  This holds for
every filter, the empty one included. -/
theorem attestations_full_scan (c : Codec) (db : Bucket) (f : Option QueryFilter) :
    (Attestations c db f).1 = decodeAll c (records db) ∧
      (∀ atts, (Attestations c db f).1 = .ok atts ↔
        List.Forall₂ (fun r a => c.unmarshal r.2 = .ok a) (records db) atts) ∧
      (∀ atts, (Attestations c db f).1 = .ok atts → atts.length = (records db).length) ∧
      ((∃ r ∈ records db, ∃ e, c.unmarshal r.2 = .error e) →
        ∃ e, (Attestations c db f).1 = .error e) ∧
      (SortedKeys db → List.Pairwise (fun r1 r2 => bytesLt r1.1 r2.1 = true) (records db)) := by
  rw [attestations_eq_decodeAll]
  refine ⟨rfl, decodeAll_ok_iff c _, ?_, decodeAll_error c _, records_sorted db⟩
  intro atts h
  exact ((decodeAll_ok_iff c _ atts).1 h).length_eq.symm

set_option maxRecDepth 100000 in
theorem attestations_full_scan_witness :
    (Attestations sampleCodec sampleStore (some ⟨[]⟩)).1 =
        .ok [sampleAtt 0 1, sampleAtt 1 2] ∧
      [sampleAtt 0 1, sampleAtt 1 2].length = (records sampleStore).length ∧
      (∃ e, (Attestations sampleCodec undecodableStore (some ⟨[]⟩)).1 = .error e) ∧
      List.Pairwise (fun r1 r2 => bytesLt r1.1 r2.1 = true) (records sampleStore) :=
  have h := attestations_full_scan sampleCodec sampleStore (some ⟨[]⟩)
  ⟨rfl, h.2.2.1 _ rfl,
   (attestations_full_scan sampleCodec undecodableStore (some ⟨[]⟩)).2.2.2.1
     ⟨(sampleKey 0 1, [9]), by decide, .proto 0, rfl⟩,
   h.2.2.2.2 (by decide)⟩

/-- C20: `Attestations` never reads its filter: for any two filters it
returns the same result, the decoded records in bucket order (or the first
decoding error), and hands the store back unchanged. -/
theorem attestations_ignores_filter (c : Codec) (db : Bucket) (f1 f2 : Option QueryFilter) :
    Attestations c db f1 = Attestations c db f2 ∧
      (Attestations c db f1).1 = decodeAll c (records db) ∧
      (Attestations c db f2).1 = decodeAll c (records db) ∧
      (Attestations c db f1).2 = db ∧ (Attestations c db f2).2 = db :=
  ⟨rfl, attestations_eq_decodeAll c db f1, attestations_eq_decodeAll c db f2, rfl, rfl⟩

/-! ## Failure of a single save, misses, and the frame of a delete -/

theorem saveAttestation_eq_update (c : Codec) (db : Bucket) (att : ethpb.Attestation) :
    SaveAttestation c db att = Update db (saveOne c att) := by
  unfold SaveAttestation saveOne Update
  cases generateAttestationKey c att with
  | error e => rfl
  | ok key =>
    cases c.marshal att with
    | error e => rfl
    | ok enc => rfl

theorem update_ok (db b1 : Bucket) (fn : Bucket → Except Error Bucket) (h : fn db = .ok b1) :
    Update db fn = (none, b1) := by
  simp only [Update, h]

theorem update_error (db : Bucket) (e : Error) (fn : Bucket → Except Error Bucket)
    (h : fn db = .error e) : Update db fn = (some e, db) := by
  simp only [Update, h]

theorem update_unchanged_on_error (db : Bucket) (fn : Bucket → Except Error Bucket)
    (h : (Update db fn).1 ≠ none) : (Update db fn).2 = db := by
  cases hf : fn db with
  | error e => rw [update_error db e fn hf]
  | ok b =>
    rw [update_ok db b fn hf] at h
    exact absurd rfl h

/-- C13: when computing the content root in `generateAttestationKey` fails,
or when serializing fails, `SaveAttestation` returns that error and the
store is as before; and whenever `SaveAttestation` returns an error the store
is as before. -/
theorem saveAttestation_atomic_on_failure (c : Codec) (db : Bucket)
    (att : ethpb.Attestation) :
    (∀ cl e, crosslinkOf att = some cl → c.hashTreeRoot att = .error e →
        SaveAttestation c db att = (some e, db)) ∧
      (∀ key e, generateAttestationKey c att = .ok key → c.marshal att = .error e →
        SaveAttestation c db att = (some e, db)) ∧
      ((SaveAttestation c db att).1 ≠ none → (SaveAttestation c db att).2 = db) := by
  refine ⟨?_, ?_, ?_⟩
  · intro cl e hcl hr
    unfold crosslinkOf at hcl
    cases hd : att.Data with
    | none => simp [hd] at hcl
    | some d =>
      rw [hd] at hcl
      simp only [Option.bind] at hcl
      simp [SaveAttestation, generateAttestationKey, hd, hcl, hr]
  · intro key e hk hm
    simp [SaveAttestation, hk, hm]
  · intro h
    rw [saveAttestation_eq_update] at h ⊢
    exact update_unchanged_on_error db _ h

set_option maxRecDepth 100000 in
theorem saveAttestation_atomic_on_failure_witness :
    SaveAttestation strictCodec sampleStore (sampleAttLong 0 1) = (some (.ssz 1), sampleStore) ∧
      SaveAttestation strictCodec sampleStore noPayloadAtt = (some (.proto 2), sampleStore) ∧
      (SaveAttestation strictCodec sampleStore noPayloadAtt).2 = sampleStore :=
  ⟨(saveAttestation_atomic_on_failure strictCodec sampleStore (sampleAttLong 0 1)).1
      _ _ rfl rfl,
   (saveAttestation_atomic_on_failure strictCodec sampleStore noPayloadAtt).2.1 _ _ rfl rfl,
   (saveAttestation_atomic_on_failure strictCodec sampleStore noPayloadAtt).2.2 (by decide)⟩

set_option maxRecDepth 100000 in
/-- C14 (counterexample): no key of the sample store contains the root
`sampleRoot 7`, and `Attestation` on that root returns the default-valued
attestation together with no error. -/
theorem attestation_miss_returns_default :
    (∀ e ∈ sampleStore, bytesContains e.1 (sampleRoot 7).bytes = false) ∧
      (HasAttestation sampleStore (sampleRoot 7)).1 = false ∧
      Attestation sampleCodec sampleStore (sampleRoot 7) =
        (.ok emptyAttestation, sampleStore) :=
  ⟨by decide, by decide, rfl⟩

/-- C14 (amended): for a root that no stored key contains, `Attestation`
returns the empty attestation with no error and leaves the store unchanged;
the miss shows only in `HasAttestation`, which is false. -/
theorem attestation_miss_is_empty_default (c : Codec) (db : Bucket) (root : Hash32)
    (h : ∀ e ∈ db, bytesContains e.1 root.bytes = false) :
    Attestation c db root = (.ok emptyAttestation, db) ∧
      (HasAttestation db root).1 = false := by
  have hhas : (HasAttestation db root).1 = false := by
    cases hb : (HasAttestation db root).1 with
    | false => rfl
    | true =>
      simp only [HasAttestation, View] at hb
      obtain ⟨pre, k, v, post, h1, _, h3⟩ := (hasAttestationLoop_iff root.bytes _).1 hb
      have hmem : (k, some v) ∈ db := by
        apply mem_of_mem_seek db root.bytes
        rw [h1]
        simp
      have := h _ hmem
      simp only at this
      rw [this] at h3
      cases h3
  refine ⟨?_, hhas⟩
  simp only [HasAttestation, View] at hhas
  simp only [Attestation, View, attestationLoop_of_not_has c root.bytes _ hhas]

set_option maxRecDepth 100000 in
theorem attestation_miss_is_empty_default_witness :
    (∀ e ∈ sampleStore, bytesContains e.1 (sampleRoot 9).bytes = false) ∧
      Attestation sampleCodec sampleStore (sampleRoot 9) = (.ok emptyAttestation, sampleStore) ∧
      (HasAttestation sampleStore (sampleRoot 9)).1 = false :=
  ⟨by decide, attestation_miss_is_empty_default sampleCodec sampleStore (sampleRoot 9) (by decide)⟩

theorem nodeDel_frame (k : Bytes) : ∀ (b : Bucket),
    nodeDel k b = b ∨ ∃ pre v post, b = pre ++ (k, v) :: post ∧ nodeDel k b = pre ++ post
  | [] => Or.inl rfl
  | (k1, v1) :: rest => by
    by_cases h1 : bytesLt k1 k = true
    · rcases nodeDel_frame k rest with h | ⟨pre, v, post, h2, h3⟩
      · exact Or.inl (by simp [nodeDel, h1, h])
      · exact Or.inr ⟨(k1, v1) :: pre, v, post, by simp [h2], by simp [nodeDel, h1, h3]⟩
    · by_cases h2 : k1 = k
      · subst h2
        exact Or.inr ⟨[], v1, rest, rfl, by simp [nodeDel, bytesLt_irrefl]⟩
      · exact Or.inl (by simp [nodeDel, h1, h2])

theorem delete_ok (b b1 : Bucket) (k : Bytes) (h : Delete b k = .ok b1) : b1 = nodeDel k b := by
  unfold Delete at h
  split at h
  · cases h
  · injection h with h
    exact h.symm

theorem deleteAttestationLoop_frame (root : Bytes) (bkt : Bucket) : ∀ (cur b1 : Bucket),
    deleteAttestationLoop root bkt cur = .ok b1 →
      b1 = bkt ∨ ∃ k, bytesContains k root = true ∧ b1 = nodeDel k bkt
  | [], b1, h => by
    simp only [deleteAttestationLoop] at h
    injection h with h
    exact Or.inl h.symm
  | (k, v) :: rest, b1, h => by
    simp only [deleteAttestationLoop] at h
    by_cases hc : bytesContains k root = true
    · simp only [hc, if_true] at h
      cases v with
      | none => exact deleteAttestationLoop_frame root bkt rest b1 h
      | some v => exact Or.inr ⟨k, hc, delete_ok bkt b1 k h⟩
    · simp only [hc, Bool.false_eq_true, if_false] at h
      injection h with h
      exact Or.inl h.symm

/-- C15: `DeleteAttestation` either leaves the store as it was or removes
exactly one entry, whose key contains the root; nothing is added and every
other entry stays in place with its key and value. -/
theorem deleteAttestation_frame (db : Bucket) (root : Hash32) :
    (DeleteAttestation db root).2 = db ∨
      ∃ pre k v post, db = pre ++ (k, v) :: post ∧
        (DeleteAttestation db root).2 = pre ++ post ∧
        bytesContains k root.bytes = true := by
  unfold DeleteAttestation
  cases h : deleteAttestationLoop root.bytes db (seek db root.bytes) with
  | error e =>
    rw [update_error db e _ h]
    exact Or.inl rfl
  | ok b1 =>
    rw [update_ok db b1 _ h]
    rcases deleteAttestationLoop_frame root.bytes db _ b1 h with h1 | ⟨k, hk, h1⟩
    · exact Or.inl h1
    · rcases nodeDel_frame k db with h2 | ⟨pre, v, post, h2, h3⟩
      · exact Or.inl (by rw [h1, h2])
      · exact Or.inr ⟨pre, k, v, post, h2, by rw [h1, h3], hk⟩

/-! ## The batch save -/

theorem saveAttestationsLoop_cons (c : Codec) (att : ethpb.Attestation)
    (atts : List ethpb.Attestation) (b : Bucket) :
    saveAttestationsLoop c (att :: atts) b =
      match saveOne c att b with
      | .error e => .error e
      | .ok b1 => saveAttestationsLoop c atts b1 := by
  simp only [saveAttestationsLoop, saveOne]
  cases generateAttestationKey c att with
  | error e => rfl
  | ok key =>
    cases c.marshal att with
    | error e => rfl
    | ok enc => rfl

theorem saveAttestationsLoop_first_error (c : Codec) (att : ethpb.Attestation)
    (post : List ethpb.Attestation) (e : Error) :
    ∀ (pre : List ethpb.Attestation) (db b1 : Bucket),
      saveAttestationsLoop c pre db = .ok b1 → saveOne c att b1 = .error e →
      saveAttestationsLoop c (pre ++ att :: post) db = .error e
  | [], db, b1, h1, h2 => by
    simp only [saveAttestationsLoop] at h1
    injection h1 with h1
    subst h1
    simp only [List.nil_append, saveAttestationsLoop_cons, h2]
  | a :: pre, db, b1, h1, h2 => by
    rw [saveAttestationsLoop_cons] at h1
    simp only [List.cons_append, saveAttestationsLoop_cons]
    cases hs : saveOne c a db with
    | error e1 =>
      rw [hs] at h1
      cases h1
    | ok b2 =>
      rw [hs] at h1
      exact saveAttestationsLoop_first_error c att post e pre b2 b1 h1 h2

theorem saveOne_error_of_step (c : Codec) (att : ethpb.Attestation) (b : Bucket) (e : Error)
    (h : generateAttestationKey c att = .error e ∨
      ∃ key, generateAttestationKey c att = .ok key ∧ c.marshal att = .error e) :
    saveOne c att b = .error e := by
  rcases h with h | ⟨key, hk, hm⟩
  · simp [saveOne, h]
  · simp [saveOne, hk, hm]

theorem generateAttestationKey_eq (c : Codec) (att : ethpb.Attestation)
    (cl : ethpb.Crosslink) (hcl : crosslinkOf att = some cl) :
    generateAttestationKey c att =
      match c.hashTreeRoot att with
      | .error e => .error e
      | .ok attRoot => .ok (keyFields c cl ++ attRoot.bytes) := by
  unfold crosslinkOf at hcl
  unfold generateAttestationKey
  cases hd : att.Data with
  | none => simp [hd] at hcl
  | some d =>
    rw [hd] at hcl
    simp only [Option.bind] at hcl
    simp only [hcl]

theorem keyFields_length (c : Codec) (cl : ethpb.Crosslink) :
    cl.ParentRoot.length < (keyFields c cl).length := by
  simp only [keyFields, strShard, List.length_append, List.length_cons, List.length_nil]
  omega

theorem saveOne_keyTooLarge (c : Codec) (att : ethpb.Attestation) (b : Bucket)
    (cl : ethpb.Crosslink) (root : Hash32) (enc : Bytes) (hcl : crosslinkOf att = some cl)
    (hr : c.hashTreeRoot att = .ok root) (hm : c.marshal att = .ok enc)
    (hlen : MaxKeySize ≤ cl.ParentRoot.length) :
    saveOne c att b = .error .keyTooLarge := by
  have hk := generateAttestationKey_eq c att cl hcl
  rw [hr] at hk
  have hl := keyFields_length c cl
  have h1 : ¬ (keyFields c cl ++ root.bytes).length = 0 := by
    rw [List.length_append]
    omega
  have h2 : (keyFields c cl ++ root.bytes).length > MaxKeySize := by
    rw [List.length_append]
    omega
  simp only [saveOne, hk, hm, Put, h1, h2, if_true, if_false]

theorem longAtt_keyTooLarge (c : Codec) (root : Hash32) (enc : Bytes) (b : Bucket)
    (hr : c.hashTreeRoot longAtt = .ok root) (hm : c.marshal longAtt = .ok enc) :
    saveOne c longAtt b = .error .keyTooLarge :=
  saveOne_keyTooLarge c longAtt b
    { Shard := 0, ParentRoot := longParentRoot, StartEpoch := 0, EndEpoch := 1 } root enc
    rfl hr hm (by
      show MaxKeySize ≤ longParentRoot.length
      rw [longParentRoot, List.length_replicate]
      exact Nat.le_refl _)

set_option maxRecDepth 100000 in
/-- C12 (counterexample): with `strictCodec` and the list `longAtt`,
`noPayloadAtt`, the first attestation whose key generation or serialization
fails is the second (its serialization fails with `proto 2`), yet the batch
returns the error of the `Put` of the first, `keyTooLarge`. -/
theorem saveAttestations_returns_put_error :
    (∃ key, generateAttestationKey strictCodec longAtt = .ok key) ∧
      (∃ enc, strictCodec.marshal longAtt = .ok enc) ∧
      (∃ key, generateAttestationKey strictCodec noPayloadAtt = .ok key) ∧
      strictCodec.marshal noPayloadAtt = .error (.proto 2) ∧
      Error.keyTooLarge ≠ Error.proto 2 ∧
      SaveAttestations strictCodec [] [longAtt, noPayloadAtt] = (some .keyTooLarge, []) := by
  have henc : ∃ enc, strictCodec.marshal longAtt = .ok enc := ⟨_, rfl⟩
  refine ⟨⟨_, rfl⟩, henc, ⟨_, rfl⟩, rfl, by decide, ?_⟩
  obtain ⟨enc, henc⟩ := henc
  have h := longAtt_keyTooLarge strictCodec (sampleRoot 3) enc [] rfl henc
  have h3 := saveAttestationsLoop_first_error strictCodec longAtt [noPayloadAtt]
    .keyTooLarge [] [] [] rfl h
  rw [List.nil_append] at h3
  unfold SaveAttestations Batch
  exact update_error [] .keyTooLarge _ h3

/-- C12 (amended): when the first attestation for which key generation,
serialization or the `Put` fails is at position `i`, `SaveAttestations`
returns exactly that error and the store is as it was before the call: no
write for a later attestation, and every record that was there is still
there with its value. -/
theorem saveAttestations_first_failure (c : Codec) (db : Bucket)
    (pre : List ethpb.Attestation) (att : ethpb.Attestation)
    (post : List ethpb.Attestation) (b1 : Bucket) (e : Error)
    (hpre : saveAttestationsLoop c pre db = .ok b1) :
    (saveOne c att b1 = .error e →
        SaveAttestations c db (pre ++ att :: post) = (some e, db)) ∧
      ((generateAttestationKey c att = .error e ∨
          ∃ key, generateAttestationKey c att = .ok key ∧ c.marshal att = .error e) →
        SaveAttestations c db (pre ++ att :: post) = (some e, db)) := by
  have h1 : saveOne c att b1 = .error e →
      SaveAttestations c db (pre ++ att :: post) = (some e, db) := by
    intro h
    exact update_error db e _ (saveAttestationsLoop_first_error c att post e pre db b1 hpre h)
  exact ⟨h1, fun h => h1 (saveOne_error_of_step c att b1 e h)⟩

set_option maxRecDepth 100000 in
theorem saveAttestations_first_failure_witness :
    SaveAttestations strictCodec sampleStore [sampleAtt 0 5, noPayloadAtt, sampleAtt 1 6] =
        (some (.proto 2), sampleStore) ∧
      SaveAttestations strictCodec sampleStore [sampleAtt 0 5, sampleAttLong 0 1] =
        (some (.ssz 1), sampleStore) :=
  ⟨(saveAttestations_first_failure strictCodec sampleStore [sampleAtt 0 5] noPayloadAtt
      [sampleAtt 1 6] (nodePut (sampleKey 0 5) (sampleEnc 0 5) sampleStore) (.proto 2)
      rfl).1 rfl,
   (saveAttestations_first_failure strictCodec sampleStore [sampleAtt 0 5] (sampleAttLong 0 1)
      [] (nodePut (sampleKey 0 5) (sampleEnc 0 5) sampleStore) (.ssz 1)
      rfl).2 (Or.inl rfl)⟩

theorem saveEach_iff (c : Codec) : ∀ (atts : List ethpb.Attestation) (db db1 : Bucket),
    saveAttestationsLoop c atts db = .ok db1 ↔
      (∀ e ∈ (saveEach c atts db).1, e = none) ∧ (saveEach c atts db).2 = db1
  | [], db, db1 => by
    simp only [saveAttestationsLoop, saveEach, List.not_mem_nil, false_implies, implies_true,
      true_and]
    constructor
    · intro h
      injection h
    · intro h
      rw [h]
  | att :: atts, db, db1 => by
    rw [saveAttestationsLoop_cons]
    simp only [saveEach, saveAttestation_eq_update]
    cases hs : saveOne c att db with
    | error e =>
      rw [update_error db e _ hs]
      simp
    | ok b1 =>
      rw [update_ok db b1 _ hs]
      simp only [List.mem_cons, forall_eq_or_imp, true_and]
      exact saveEach_iff c atts b1 db1

set_option maxRecDepth 100000 in
/-- C16 (counterexample): with `sampleCodec`, key generation and
serialization succeed for `sampleAtt 0 1` and for `longAtt`; the batch save
of the two into the empty store returns `keyTooLarge` and leaves the store
empty, while saving them one by one leaves the record of the first in the
store. -/
theorem saveAttestations_differs_from_saveEach :
    (∃ key, generateAttestationKey sampleCodec (sampleAtt 0 1) = .ok key) ∧
      (∃ enc, sampleCodec.marshal (sampleAtt 0 1) = .ok enc) ∧
      (∃ key, generateAttestationKey sampleCodec longAtt = .ok key) ∧
      (∃ enc, sampleCodec.marshal longAtt = .ok enc) ∧
      SaveAttestations sampleCodec [] [sampleAtt 0 1, longAtt] = (some .keyTooLarge, []) ∧
      saveEach sampleCodec [sampleAtt 0 1, longAtt] [] =
        ([none, some .keyTooLarge], [(sampleKey 0 1, some (sampleEnc 0 1))]) := by
  have henc : ∃ enc, sampleCodec.marshal longAtt = .ok enc := ⟨_, rfl⟩
  refine ⟨⟨_, rfl⟩, ⟨_, rfl⟩, ⟨_, rfl⟩, henc, ?_, ?_⟩
  · obtain ⟨enc, henc⟩ := henc
    have h := longAtt_keyTooLarge sampleCodec (sampleRoot 3) enc
      [(sampleKey 0 1, some (sampleEnc 0 1))] rfl henc
    have h3 := saveAttestationsLoop_first_error sampleCodec longAtt [] .keyTooLarge
      [sampleAtt 0 1] [] [(sampleKey 0 1, some (sampleEnc 0 1))] rfl h
    unfold SaveAttestations Batch
    exact update_error [] .keyTooLarge _ h3
  · obtain ⟨enc, henc⟩ := henc
    have h := longAtt_keyTooLarge sampleCodec (sampleRoot 3) enc
      [(sampleKey 0 1, some (sampleEnc 0 1))] rfl henc
    have h1 : SaveAttestation sampleCodec [] (sampleAtt 0 1) =
        (none, [(sampleKey 0 1, some (sampleEnc 0 1))]) := rfl
    have h2 : SaveAttestation sampleCodec [(sampleKey 0 1, some (sampleEnc 0 1))] longAtt =
        (some .keyTooLarge, [(sampleKey 0 1, some (sampleEnc 0 1))]) := by
      rw [saveAttestation_eq_update]
      exact update_error _ _ _ h
    simp only [saveEach, h1, h2]

/-- C16 (amended): when key generation, serialization and the `Put` succeed
for every element, that is when every single `SaveAttestation` in list order
returns no error, `SaveAttestations` returns no error as well and leaves the
same store; and `SaveAttestations` returns no error only in that case. -/
theorem saveAttestations_eq_saveEach (c : Codec) (db : Bucket)
    (atts : List ethpb.Attestation) :
    ((∀ e ∈ (saveEach c atts db).1, e = none) →
        SaveAttestations c db atts = (none, (saveEach c atts db).2)) ∧
      ((SaveAttestations c db atts).1 = none →
        (∀ e ∈ (saveEach c atts db).1, e = none) ∧
        (SaveAttestations c db atts).2 = (saveEach c atts db).2) := by
  constructor
  · intro h
    have h1 := (saveEach_iff c atts db _).2 ⟨h, rfl⟩
    unfold SaveAttestations Batch
    exact update_ok db _ _ h1
  · intro h
    unfold SaveAttestations Batch at h ⊢
    cases hl : saveAttestationsLoop c atts db with
    | error e =>
      rw [update_error db e _ hl] at h
      cases h
    | ok db1 =>
      rw [update_ok db db1 _ hl]
      obtain ⟨h1, h2⟩ := (saveEach_iff c atts db db1).1 hl
      exact ⟨h1, h2.symm⟩

set_option maxRecDepth 100000 in
theorem saveAttestations_eq_saveEach_witness :
    SaveAttestations sampleCodec [] [sampleAtt 0 1, sampleAtt 1 2] = (none, sampleStore) ∧
      (saveEach sampleCodec [sampleAtt 0 1, sampleAtt 1 2] []).2 = sampleStore :=
  have h := (saveAttestations_eq_saveEach sampleCodec [] [sampleAtt 0 1, sampleAtt 1 2]).1
    (by decide)
  ⟨h, rfl⟩

/-! ## The seek position -/

theorem seek_eq_nil_iff (db : Bucket) (key : Bytes) :
    seek db key = [] ↔ ∀ e ∈ db, bytesLt e.1 key = true := by
  simp [seek, List.dropWhile_eq_nil_iff]

theorem seek_cons_spec (key k0 : Bytes) (v0 : Option Bytes) (rest : Bucket) :
    ∀ (db : Bucket), seek db key = (k0, v0) :: rest →
      ∃ pre, db = pre ++ (k0, v0) :: rest ∧ (∀ e ∈ pre, bytesLt e.1 key = true) ∧
        bytesLt k0 key = false
  | [], h => by simp [seek] at h
  | (k, v) :: tl, h => by
    by_cases hlt : bytesLt k key = true
    · have h1 : seek tl key = (k0, v0) :: rest := by
        simpa [seek, List.dropWhile, hlt] using h
      obtain ⟨pre, hp1, hp2, hp3⟩ := seek_cons_spec key k0 v0 rest tl h1
      refine ⟨(k, v) :: pre, by simp [hp1], ?_, hp3⟩
      intro e he
      rcases List.mem_cons.1 he with h2 | h2
      · rw [h2]
        exact hlt
      · exact hp2 e h2
    · have h1 : (k, v) :: tl = (k0, v0) :: rest := by
        simpa [seek, List.dropWhile, hlt] using h
      simp only [List.cons.injEq, Prod.mk.injEq] at h1
      obtain ⟨⟨hk, hv⟩, ht⟩ := h1
      subst hk hv ht
      exact ⟨[], rfl, by simp, by simpa using hlt⟩

theorem isSeekKey_of_seek (db : Bucket) (key k0 : Bytes) (v0 : Option Bytes) (rest : Bucket)
    (hs : SortedKeys db) (h : seek db key = (k0, v0) :: rest) : IsSeekKey db key k0 := by
  obtain ⟨pre, hdb, hpre, hk0⟩ := seek_cons_spec key k0 v0 rest db h
  refine ⟨?_, hk0, ?_⟩
  · rw [hdb]
    simp
  · intro e he hge
    rw [hdb] at he hs
    rcases List.mem_append.1 he with h1 | h1
    · rw [hpre e h1] at hge
      cases hge
    · rcases List.mem_cons.1 h1 with h2 | h2
      · exact Or.inl (by rw [h2])
      · have hs2 : SortedKeys ((k0, v0) :: rest) := (List.pairwise_append.1 hs).2.1
        exact Or.inr ((List.pairwise_cons.1 hs2).1 e h2)

theorem isSeekKey_unique (db : Bucket) (key k0 k1 : Bytes) (h0 : IsSeekKey db key k0)
    (h1 : IsSeekKey db key k1) : k0 = k1 := by
  obtain ⟨m0, g0, a0⟩ := h0
  obtain ⟨m1, g1, a1⟩ := h1
  obtain ⟨e0, he0, hk0⟩ := List.mem_map.1 m0
  obtain ⟨e1, he1, hk1⟩ := List.mem_map.1 m1
  have b0 := a0 e1 he1 (by rw [hk1]; exact g1)
  have b1 := a1 e0 he0 (by rw [hk0]; exact g0)
  rw [hk1] at b0
  rw [hk0] at b1
  rcases b0 with h | h
  · exact h.symm
  · rcases b1 with h2 | h2
    · exact h2
    · have := bytesLt_asymm k0 k1 h
      rw [h2] at this
      cases this

theorem seek_of_isSeekKey (db : Bucket) (key k0 : Bytes) (hs : SortedKeys db)
    (h : IsSeekKey db key k0) : ∃ v0 rest, seek db key = (k0, v0) :: rest := by
  cases hseek : seek db key with
  | nil =>
    obtain ⟨m0, g0, _⟩ := h
    obtain ⟨e0, he0, hk0⟩ := List.mem_map.1 m0
    have := (seek_eq_nil_iff db key).1 hseek e0 he0
    rw [hk0, g0] at this
    cases this
  | cons e rest =>
    obtain ⟨k, v⟩ := e
    have := isSeekKey_unique db key k k0 (isSeekKey_of_seek db key k v rest hs hseek) h
    subst this
    exact ⟨v, rest, rfl⟩

theorem nodeDel_sorted (k : Bytes) : ∀ (b : Bucket), SortedKeys b →
    nodeDel k b = b.filter (fun e => decide (e.1 ≠ k))
  | [], _ => rfl
  | (k1, v1) :: rest, hs => by
    have hs1 : ∀ e ∈ rest, bytesLt k1 e.1 = true := (List.pairwise_cons.1 hs).1
    have hs2 : SortedKeys rest := (List.pairwise_cons.1 hs).2
    by_cases h1 : bytesLt k1 k = true
    · have hne : k1 ≠ k := by
        intro h
        rw [h, bytesLt_irrefl] at h1
        cases h1
      simp [nodeDel, h1, hne, nodeDel_sorted k rest hs2]
    · have hrest : rest.filter (fun e => decide (e.1 ≠ k)) = rest := by
        rw [List.filter_eq_self]
        intro e he
        simp only [ne_eq, decide_not, Bool.not_eq_eq_eq_not, Bool.not_true,
          decide_eq_false_iff_not]
        intro hek
        have hlt := hs1 e he
        rw [hek] at hlt
        exact h1 hlt
      by_cases h2 : k1 = k
      · subst h2
        simp only [nodeDel, bytesLt_irrefl, Bool.false_eq_true, if_false, if_true]
        simp only [List.filter_cons, ne_eq, not_true_eq_false, decide_False,
          Bool.false_eq_true, if_false]
        exact hrest.symm
      · have hf : ((k1, v1) :: rest).filter (fun e => decide (e.1 ≠ k)) = (k1, v1) :: rest := by
          simp only [List.filter_cons, ne_eq, h2, not_false_eq_true, decide_True, if_true]
          rw [hrest]
        rw [hf]
        simp [nodeDel, h1, h2]

theorem delete_of_no_nested (db : Bucket) (k : Bytes) (hv : ∀ e ∈ db, e.2 ≠ none) :
    Delete db k = .ok (nodeDel k db) := by
  unfold Delete
  split
  · rename_i k1 rest hseek
    have hmem : (k1, none) ∈ db := by
      apply mem_of_mem_seek db k
      rw [hseek]
      exact List.mem_cons_self _ _
    exact absurd rfl (hv _ hmem)
  · rfl

theorem found_of_seek_cons (c : Codec) (db : Bucket) (root : Hash32) (k0 v0 : Bytes)
    (rest : Bucket) (hseek : seek db root.bytes = (k0, some v0) :: rest)
    (hc : bytesContains k0 root.bytes = true) :
    Attestation c db root = (c.unmarshal v0, db) ∧ HasAttestation db root = (true, db) ∧
      DeleteAttestation db root = Update db (fun bkt => Delete bkt k0) := by
  refine ⟨?_, ?_, ?_⟩
  · simp [Attestation, View, hseek, attestationLoop, hc]
  · simp [HasAttestation, View, hseek, hasAttestationLoop, hc]
  · simp [DeleteAttestation, Update, hseek, deleteAttestationLoop, hc]

theorem not_found_of_seek (c : Codec) (db : Bucket) (root : Hash32)
    (h : seek db root.bytes = [] ∨
      ∃ k v rest, seek db root.bytes = (k, v) :: rest ∧ bytesContains k root.bytes = false) :
    Attestation c db root = (.ok emptyAttestation, db) ∧ HasAttestation db root = (false, db) ∧
      DeleteAttestation db root = (none, db) := by
  rcases h with h | ⟨k, v, rest, h, hc⟩
  · simp [Attestation, HasAttestation, DeleteAttestation, View, Update, h, attestationLoop,
      hasAttestationLoop, deleteAttestationLoop]
  · simp [Attestation, HasAttestation, DeleteAttestation, View, Update, h, attestationLoop,
      hasAttestationLoop, deleteAttestationLoop, hc]

/-- C17: in a sorted store without nested buckets, let `k0` be the smallest
stored key that is not below the root (there is at most one).  When `k0`
exists and contains the root, `Attestation` returns the decoding of its
value, `HasAttestation` is true and `DeleteAttestation` removes exactly the
entry of `k0`; otherwise `Attestation` returns the empty attestation with no
error, `HasAttestation` is false and `DeleteAttestation` leaves the store
unchanged, whatever other keys the store holds. -/
theorem seek_position_characterisation (c : Codec) (db : Bucket) (root : Hash32)
    (hs : SortedKeys db) (hv : ∀ e ∈ db, e.2 ≠ none) :
    (∀ k0 k1, IsSeekKey db root.bytes k0 → IsSeekKey db root.bytes k1 → k0 = k1) ∧
      (∀ k0, IsSeekKey db root.bytes k0 → bytesContains k0 root.bytes = true →
        ∃ v0, (k0, some v0) ∈ db ∧ Attestation c db root = (c.unmarshal v0, db) ∧
          HasAttestation db root = (true, db) ∧
          DeleteAttestation db root = (none, db.filter (fun e => decide (e.1 ≠ k0)))) ∧
      ((∀ k0, IsSeekKey db root.bytes k0 → bytesContains k0 root.bytes = false) →
        Attestation c db root = (.ok emptyAttestation, db) ∧
          HasAttestation db root = (false, db) ∧ DeleteAttestation db root = (none, db)) := by
  refine ⟨fun k0 k1 => isSeekKey_unique db root.bytes k0 k1, ?_, ?_⟩
  · intro k0 hk hc
    obtain ⟨v, rest, hseek⟩ := seek_of_isSeekKey db root.bytes k0 hs hk
    have hmem : (k0, v) ∈ db := by
      apply mem_of_mem_seek db root.bytes
      rw [hseek]
      exact List.mem_cons_self _ _
    cases v with
    | none => exact absurd rfl (hv _ hmem)
    | some v0 =>
      obtain ⟨h1, h2, h3⟩ := found_of_seek_cons c db root k0 v0 rest hseek hc
      refine ⟨v0, hmem, h1, h2, ?_⟩
      rw [h3, update_ok db _ _ (delete_of_no_nested db k0 hv), nodeDel_sorted k0 db hs]
  · intro h
    apply not_found_of_seek
    cases hseek : seek db root.bytes with
    | nil => exact Or.inl rfl
    | cons e rest =>
      obtain ⟨k, v⟩ := e
      exact Or.inr ⟨k, v, rest, rfl, h k (isSeekKey_of_seek db root.bytes k v rest hs hseek)⟩

set_option maxRecDepth 100000 in
theorem seek_position_characterisation_witness :
    (∃ v0, (sampleKey 0 1, some v0) ∈ sampleStore ∧
        Attestation sampleCodec sampleStore (sampleRoot 1) = (sampleCodec.unmarshal v0, sampleStore) ∧
        HasAttestation sampleStore (sampleRoot 1) = (true, sampleStore) ∧
        DeleteAttestation sampleStore (sampleRoot 1) =
          (none, sampleStore.filter (fun e => decide (e.1 ≠ sampleKey 0 1)))) ∧
      bytesContains (sampleKey 1 2) (sampleRoot 2).bytes = true ∧
      (Attestation sampleCodec sampleStore (sampleRoot 2) = (.ok emptyAttestation, sampleStore) ∧
        HasAttestation sampleStore (sampleRoot 2) = (false, sampleStore) ∧
        DeleteAttestation sampleStore (sampleRoot 2) = (none, sampleStore)) :=
  have hv : ∀ e ∈ sampleStore, e.2 ≠ none := by decide
  have hs : SortedKeys sampleStore := by decide
  ⟨(seek_position_characterisation sampleCodec sampleStore (sampleRoot 1) hs hv).2.1
      (sampleKey 0 1) (by decide) (by decide),
   by decide,
   (seek_position_characterisation sampleCodec sampleStore (sampleRoot 2) hs hv).2.2
      (fun k0 hk => by
        have := isSeekKey_unique sampleStore (sampleRoot 2).bytes k0 (sampleKey 0 1) hk
          (by decide)
        subst this
        decide)⟩

/-! ## Keys begin with "shard" -/

theorem generateAttestationKey_shard (c : Codec) (att : ethpb.Attestation) (key : Bytes)
    (h : generateAttestationKey c att = .ok key) : ∃ t, key = strShard ++ t := by
  obtain ⟨cl, root, _, hkey⟩ := generateAttestationKey_ok c att key h
  refine ⟨(c.uint64ToBytes cl.Shard ++ strParentRoot ++ cl.ParentRoot ++ strStartEpoch ++
    c.uint64ToBytes cl.StartEpoch ++ strEndEpoch ++ c.uint64ToBytes cl.EndEpoch ++ strRoot) ++
    root.bytes, ?_⟩
  rw [hkey]
  simp only [keyFields, List.append_assoc]

theorem saveOne_shard (c : Codec) (att : ethpb.Attestation) (b b1 : Bucket)
    (h : saveOne c att b = .ok b1) (hb : ∀ e ∈ b, ∃ t, e.1 = strShard ++ t) :
    ∀ e ∈ b1, ∃ t, e.1 = strShard ++ t := by
  unfold saveOne at h
  cases hk : generateAttestationKey c att with
  | error e => simp [hk] at h
  | ok key =>
    cases hm : c.marshal att with
    | error e => simp [hk, hm] at h
    | ok enc =>
      simp only [hk, hm] at h
      intro e he
      rw [put_ok b b1 key enc h] at he
      rcases mem_nodePut key enc b e he with h1 | h1
      · rw [h1]
        exact generateAttestationKey_shard c att key hk
      · exact hb e h1

theorem saveAttestationsLoop_shard (c : Codec) : ∀ (atts : List ethpb.Attestation)
    (b b1 : Bucket), saveAttestationsLoop c atts b = .ok b1 →
      (∀ e ∈ b, ∃ t, e.1 = strShard ++ t) → ∀ e ∈ b1, ∃ t, e.1 = strShard ++ t
  | [], b, b1, h, hb => by
    simp only [saveAttestationsLoop] at h
    injection h with h
    rw [← h]
    exact hb
  | att :: atts, b, b1, h, hb => by
    rw [saveAttestationsLoop_cons] at h
    cases hs : saveOne c att b with
    | error e =>
      rw [hs] at h
      cases h
    | ok b2 =>
      rw [hs] at h
      exact saveAttestationsLoop_shard c atts b2 b1 h (saveOne_shard c att b b2 hs hb)

theorem update_shard (db : Bucket) (fn : Bucket → Except Error Bucket)
    (hfn : ∀ b1, fn db = .ok b1 → ∀ e ∈ b1, ∃ t, e.1 = strShard ++ t)
    (hb : ∀ e ∈ db, ∃ t, e.1 = strShard ++ t) :
    ∀ e ∈ (Update db fn).2, ∃ t, e.1 = strShard ++ t := by
  cases hf : fn db with
  | error e =>
    rw [update_error db e fn hf]
    exact hb
  | ok b1 =>
    rw [update_ok db b1 fn hf]
    exact hfn b1 hf

theorem populated_shard (c : Codec) (db : Bucket) (h : Populated c db) :
    ∀ e ∈ db, ∃ t, e.1 = strShard ++ t := by
  induction h with
  | empty => simp
  | save db att _ ih =>
    rw [saveAttestation_eq_update]
    exact update_shard db _ (fun b1 h1 => saveOne_shard c att db b1 h1 ih) ih
  | saveBatch db atts _ ih =>
    unfold SaveAttestations Batch
    exact update_shard db _ (fun b1 h1 => saveAttestationsLoop_shard c atts db b1 h1 ih) ih

/-- C18: every key that `generateAttestationKey` produces begins with the
bytes of "shard", so every key of a store populated from the empty one by
`SaveAttestation` and `SaveAttestations` does; hence for a root above every
stored key, and so for every root whose first byte is above 0x73,
`HasAttestation` is false, `Attestation` returns the empty attestation and
`DeleteAttestation` changes nothing. -/
theorem populated_keys_begin_with_shard (c : Codec) (db : Bucket) (hp : Populated c db) :
    (∀ att key, generateAttestationKey c att = .ok key → ∃ t, key = strShard ++ t) ∧
      (∀ e ∈ db, ∃ t, e.1 = strShard ++ t) ∧
      (∀ root : Hash32, (∀ e ∈ db, bytesLt e.1 root.bytes = true) →
        HasAttestation db root = (false, db) ∧
          Attestation c db root = (.ok emptyAttestation, db) ∧
          DeleteAttestation db root = (none, db)) ∧
      (∀ (root : Hash32) (x : Nat) (t : Bytes), root.bytes = x :: t → 115 < x →
        HasAttestation db root = (false, db) ∧
          Attestation c db root = (.ok emptyAttestation, db) ∧
          DeleteAttestation db root = (none, db)) := by
  have hkeys := populated_shard c db hp
  have hgt : ∀ root : Hash32, (∀ e ∈ db, bytesLt e.1 root.bytes = true) →
      HasAttestation db root = (false, db) ∧
        Attestation c db root = (.ok emptyAttestation, db) ∧
        DeleteAttestation db root = (none, db) := by
    intro root h
    obtain ⟨h1, h2, h3⟩ :=
      not_found_of_seek c db root (Or.inl ((seek_eq_nil_iff db root.bytes).2 h))
    exact ⟨h2, h1, h3⟩
  refine ⟨fun att key => generateAttestationKey_shard c att key, hkeys, hgt, ?_⟩
  intro root x t hx hlt
  apply hgt
  intro e he
  obtain ⟨u, hu⟩ := hkeys e he
  rw [hu, hx]
  exact bytesLt_cons_of_lt 115 x _ _ hlt

set_option maxRecDepth 100000 in
theorem populated_keys_begin_with_shard_witness :
    (∃ t, sampleKey 0 1 = strShard ++ t) ∧
      (HasAttestation sampleStore (sampleRoot 200) = (false, sampleStore) ∧
        Attestation sampleCodec sampleStore (sampleRoot 200) =
          (.ok emptyAttestation, sampleStore) ∧
        DeleteAttestation sampleStore (sampleRoot 200) = (none, sampleStore)) ∧
      (HasAttestation sampleStore (sampleRoot 116) = (false, sampleStore) ∧
        Attestation sampleCodec sampleStore (sampleRoot 116) =
          (.ok emptyAttestation, sampleStore) ∧
        DeleteAttestation sampleStore (sampleRoot 116) = (none, sampleStore)) :=
  have hp : Populated sampleCodec sampleStore :=
    Populated.save _ (sampleAtt 1 2) (Populated.save _ (sampleAtt 0 1) Populated.empty)
  have h := populated_keys_begin_with_shard sampleCodec sampleStore hp
  ⟨h.1 (sampleAtt 0 1) (sampleKey 0 1) rfl,
   h.2.2.1 (sampleRoot 200) (by decide),
   h.2.2.2 (sampleRoot 116) 116 (List.replicate 31 116) (by decide) (by decide)⟩

/-! ## A root found as parent root -/

theorem isPrefixOf_append (s t : Bytes) : s.isPrefixOf (s ++ t) = true := by
  induction s with
  | nil => cases t <;> rfl
  | cons x xs ih => simp [List.isPrefixOf, ih]

theorem bytesContains_append (s t : Bytes) : ∀ (a : Bytes),
    bytesContains (a ++ (s ++ t)) s = true
  | [] => by
    cases hst : s ++ t with
    | nil =>
      have : s = [] := (List.append_eq_nil.1 hst).1
      subst this
      rfl
    | cons x xs =>
      simp only [List.nil_append, hst, bytesContains, Bool.or_eq_true]
      left
      rw [← hst]
      exact isPrefixOf_append s t
  | y :: a => by
    simp only [List.cons_append, bytesContains, Bool.or_eq_true]
    right
    exact bytesContains_append s t a

theorem keyFields_contains_parentRoot (c : Codec) (cl : ethpb.Crosslink) (tail : Bytes) :
    bytesContains (keyFields c cl ++ tail) cl.ParentRoot = true := by
  have h : keyFields c cl ++ tail =
      (strShard ++ c.uint64ToBytes cl.Shard ++ strParentRoot) ++
        (cl.ParentRoot ++ (strStartEpoch ++ c.uint64ToBytes cl.StartEpoch ++ strEndEpoch ++
          c.uint64ToBytes cl.EndEpoch ++ strRoot ++ tail)) := by
    simp only [keyFields, List.append_assoc]
  rw [h]
  exact bytesContains_append _ _ _

/-- C19: let `b` be an attestation whose crosslink parent root is the 32
bytes of `r`, with first byte below 0x73, and whose content root is not `r`.
In the store that holds `b` alone, saved by `SaveAttestation`, the lookup of
`r` returns `b` and `HasAttestation` on `r` is true, although the only
attestation ever saved has another content root. -/
theorem lookup_returns_other_attestation (c : Codec) (b : ethpb.Attestation)
    (cl : ethpb.Crosslink) (r : Hash32) (enc : Bytes) (x : Nat) (t : Bytes) (db : Bucket)
    (hcl : crosslinkOf b = some cl) (hpr : cl.ParentRoot = r.bytes)
    (hx : r.bytes = x :: t) (hlt : x < 115)
    (henc : c.marshal b = .ok enc) (hdec : c.unmarshal enc = .ok b)
    (hroot : c.hashTreeRoot b ≠ .ok r)
    (hsave : SaveAttestation c [] b = (none, db)) :
    Populated c db ∧ (records db).length = 1 ∧
      (∀ root, c.hashTreeRoot b = .ok root → root ≠ r) ∧
      Attestation c db r = (.ok b, db) ∧ HasAttestation db r = (true, db) := by
  obtain ⟨key, enc1, hk, hm, hp⟩ := saveAttestation_ok c [] db b hsave
  rw [henc] at hm
  injection hm with hm
  subst hm
  have hdb : db = [(key, some enc)] := by
    rw [put_ok [] db key enc hp]
    rfl
  have hkey := generateAttestationKey_eq c b cl hcl
  rw [hk] at hkey
  cases hr : c.hashTreeRoot b with
  | error e =>
    rw [hr] at hkey
    cases hkey
  | ok root1 =>
    rw [hr] at hkey
    injection hkey with hkey
    obtain ⟨u, hu⟩ := keyFields_head c cl
    have hnlt : bytesLt key r.bytes = false := by
      rw [hkey, hu, hx]
      have h1 : ¬ 115 < x := by omega
      simp [bytesLt, h1, hlt]
    have hseek : seek db r.bytes = (key, some enc) :: [] := by
      rw [hdb]
      simp [seek, List.dropWhile, hnlt]
    have hcont : bytesContains key r.bytes = true := by
      rw [hkey, ← hpr]
      exact keyFields_contains_parentRoot c cl root1.bytes
    obtain ⟨h1, h2, _⟩ := found_of_seek_cons c db r key enc [] hseek hcont
    refine ⟨?_, ?_, ?_, ?_, h2⟩
    · have hp1 : Populated c (SaveAttestation c [] b).2 := Populated.save [] b Populated.empty
      rw [hsave] at hp1
      exact hp1
    · rw [hdb]
      rfl
    · intro root h3 h4
      exact hroot (by rw [hr, h3, h4])
    · rw [h1, hdec]

set_option maxRecDepth 100000 in
theorem lookup_returns_other_attestation_witness :
    sampleCodec.hashTreeRoot (sampleAtt 0 1) = .ok (sampleRoot 1) ∧
      sampleRoot 1 ≠ sampleRoot 0 ∧
      Attestation sampleCodec (SaveAttestation sampleCodec [] (sampleAtt 0 1)).2 (sampleRoot 0) =
        (.ok (sampleAtt 0 1), (SaveAttestation sampleCodec [] (sampleAtt 0 1)).2) ∧
      HasAttestation (SaveAttestation sampleCodec [] (sampleAtt 0 1)).2 (sampleRoot 0) =
        (true, (SaveAttestation sampleCodec [] (sampleAtt 0 1)).2) :=
  have h := lookup_returns_other_attestation sampleCodec (sampleAtt 0 1)
    { Shard := 0, ParentRoot := List.replicate 32 0, StartEpoch := 0, EndEpoch := 1 }
    (sampleRoot 0) (sampleEnc 0 1) 0 (List.replicate 31 0)
    (SaveAttestation sampleCodec [] (sampleAtt 0 1)).2 rfl rfl rfl (by decide) rfl rfl
    (by
      intro heq
      injection heq with heq
      revert heq
      decide)
    rfl
  ⟨rfl, h.2.2.1 _ rfl, h.2.2.2.1, h.2.2.2.2⟩

end kv
